import Mathlib

/-!
# Verification of the poly-lexis translation structure engine

A shallow embedding of the translation synchronization and validation
engine of the poly-lexis repository, together with proofs about its
behaviour.

JavaScript objects (translation files) are modelled as insertion-ordered
association lists from keys to string values; a language directory is an
association list from namespace names to file contents; the translations
root on disk is an association list from language names to directories.
Reading and assigning a property of a JavaScript object correspond to
the functions aget and aset below, which respect the first occurrence of
a key and preserve key order on update, exactly as JavaScript property
assignment and JSON serialization do.

The definitions mirror, function by function, the code in
src/translations/utils/utils.ts, src/translations/cli/validate.ts,
src/translations/cli/find-duplicates.ts,
src/translations/cli/generate-types.ts and
src/translations/cli/auto-fill.ts.
-/

namespace PolyLexis

/-- Read the value of a key in a JavaScript-object-like association list
(first occurrence wins, as keys of a JS object are unique). -/
def aget {α : Type} : List (String × α) → String → Option α
  | [], _ => none
  | (k, v) :: rest, key => if k = key then some v else aget rest key

/-- Assign a key in a JavaScript-object-like association list: update the
first occurrence in place, or append the key at the end, exactly like a
JS property assignment. -/
def aset {α : Type} : List (String × α) → String → α → List (String × α)
  | [], key, v => [(key, v)]
  | (k, w) :: rest, key, v =>
      if k = key then (k, v) :: rest else (k, w) :: aset rest key v

/-- Object.keys: the key list of an association list in order. -/
def keys {α : Type} (m : List (String × α)) : List String := m.map Prod.fst

@[simp] theorem aget_nil {α : Type} (key : String) :
    aget ([] : List (String × α)) key = none := rfl

theorem aget_cons {α : Type} (k : String) (v : α) (rest : List (String × α))
    (key : String) :
    aget ((k, v) :: rest) key = if k = key then some v else aget rest key := rfl

@[simp] theorem aget_aset_self {α : Type} (m : List (String × α)) (k : String) (v : α) :
    aget (aset m k v) k = some v := by
  induction m with
  | nil => simp [aset, aget]
  | cons hd tl ih =>
      obtain ⟨k', w⟩ := hd
      by_cases h : k' = k
      · simp [aset, aget, h]
      · simp [aset, aget, h, ih]

theorem aget_aset_ne {α : Type} (m : List (String × α)) (k key : String) (v : α)
    (h : key ≠ k) : aget (aset m k v) key = aget m key := by
  have hne : k ≠ key := fun hh => h hh.symm
  induction m with
  | nil => simp [aset, aget, hne]
  | cons hd tl ih =>
      obtain ⟨k', w⟩ := hd
      by_cases hk : k' = k
      · subst hk
        simp [aset, aget, hne]
      · simp only [aset, if_neg hk, aget_cons]
        by_cases hk2 : k' = key
        · simp [hk2]
        · simp [hk2, ih]

theorem aget_isSome_iff_mem_keys {α : Type} (m : List (String × α)) (key : String) :
    (aget m key).isSome = true ↔ key ∈ keys m := by
  induction m with
  | nil => simp [keys]
  | cons hd tl ih =>
      obtain ⟨k, v⟩ := hd
      by_cases h : k = key
      · simp [aget, keys, h]
      · simp [aget, keys, h, ih, Ne.symm h]

theorem aget_eq_none_iff {α : Type} (m : List (String × α)) (key : String) :
    aget m key = none ↔ key ∉ keys m := by
  rw [← aget_isSome_iff_mem_keys]
  cases aget m key <;> simp

theorem mem_of_aget_eq_some {α : Type} {m : List (String × α)} {key : String} {v : α}
    (h : aget m key = some v) : (key, v) ∈ m := by
  induction m with
  | nil => simp [aget] at h
  | cons hd tl ih =>
      obtain ⟨k, w⟩ := hd
      by_cases hk : k = key
      · subst hk
        simp [aget] at h
        simp [h]
      · simp [aget, hk] at h
        simp [ih h]

theorem mem_keys_aset {α : Type} (m : List (String × α)) (k key : String) (v : α) :
    key ∈ keys (aset m k v) ↔ key ∈ keys m ∨ key = k := by
  induction m with
  | nil => simp [aset, keys]
  | cons hd tl ih =>
      obtain ⟨k', w⟩ := hd
      by_cases hk : k' = k
      · subst hk
        simp [aset, keys]
        tauto
      · simp [aset, hk, keys] at ih ⊢
        tauto

theorem aget_aset_isSome {α : Type} (m : List (String × α)) (k key : String) (v : α)
    (h : (aget m key).isSome = true) : (aget (aset m k v) key).isSome = true := by
  rw [aget_isSome_iff_mem_keys] at h ⊢
  rw [mem_keys_aset]
  exact Or.inl h

/-- A translation file as a flat key-value map (insertion ordered). -/
abbrev FlatMap := List (String × String)

/-- One language's directory: namespace name to file contents. -/
abbrev LangDir := List (String × FlatMap)

/-- The translations root: language name to directory.  A language whose
directory does not exist is simply absent from the list. -/
abbrev Disk := List (String × LangDir)

/-- readTranslations (utils.ts): all translation files of a language as a
map from namespace to flat map; a missing language directory yields the
empty map. -/
def readTranslations (disk : Disk) (language : String) : LangDir :=
  (aget disk language).getD []

/-- writeTranslation (utils.ts): write one namespace file, creating the
language directory if absent, overwriting unconditionally. -/
def writeTranslation (disk : Disk) (language ns : String) (file : FlatMap) : Disk :=
  aset disk language (aset (readTranslations disk language) ns file)

/-- getNamespaces (utils.ts): the namespace names present under one
language's directory, empty if the directory is absent. -/
def getNamespaces (disk : Disk) (language : String) : List String :=
  keys (readTranslations disk language)

/-- fs.existsSync on a namespace file, together with its contents. -/
def fileOf (disk : Disk) (language ns : String) : Option FlatMap :=
  aget (readTranslations disk language) ns

/-- ensureTranslationsStructure (utils.ts): create the directory of every
configured language when absent. -/
def ensureTranslationsStructure (disk : Disk) (languages : List String) : Disk :=
  languages.foldl (fun d lang => if (aget d lang).isSome then d else aset d lang []) disk

/-- Lexicographic comparison of character sequences: the order JavaScript
uses for the default Array.prototype.sort comparator on strings. -/
def charListLe : List Char → List Char → Bool
  | [], _ => true
  | _ :: _, [] => false
  | a :: as, b :: bs => if a = b then charListLe as bs else decide (a < b)

/-- The string order of the default JavaScript sort comparator. -/
def jsLeString (a b : String) : Bool := charListLe a.data b.data

/-- Stable insertion of a key into a sorted key list. -/
def insertSorted (k : String) : List String → List String
  | [] => [k]
  | x :: xs => if jsLeString k x then k :: x :: xs else x :: insertSorted k xs

/-- Object.keys(obj).sort(): the keys in ascending lexicographic order. -/
def sortStrings : List String → List String
  | [] => []
  | x :: xs => insertSorted x (sortStrings xs)

/-- sortKeys (utils.ts): a new map with the keys in lexicographic order. -/
def sortKeys (m : FlatMap) : FlatMap :=
  (sortStrings (keys m)).filterMap
    (fun k => (aget m k).map (fun v => (k, v)))

/-- createEmptyTranslationStructure (utils.ts): same keys, all values
replaced by the empty string. -/
def createEmptyTranslationStructure (sourceFile : FlatMap) : FlatMap :=
  sourceFile.map (fun kv => (kv.1, ""))

theorem readTranslations_writeTranslation_self (disk : Disk) (language ns : String)
    (file : FlatMap) :
    readTranslations (writeTranslation disk language ns file) language
      = aset (readTranslations disk language) ns file := by
  simp [readTranslations, writeTranslation]

theorem readTranslations_writeTranslation_ne (disk : Disk) (language ns : String)
    (file : FlatMap) (l : String) (h : l ≠ language) :
    readTranslations (writeTranslation disk language ns file) l
      = readTranslations disk l := by
  simp [readTranslations, writeTranslation, aget_aset_ne _ _ _ _ h]

theorem fileOf_writeTranslation_self (disk : Disk) (language ns : String)
    (file : FlatMap) :
    fileOf (writeTranslation disk language ns file) language ns = some file := by
  simp [fileOf, readTranslations_writeTranslation_self]

theorem fileOf_writeTranslation_ne (disk : Disk) (language ns : String)
    (file : FlatMap) (l n : String) (h : ¬ (l = language ∧ n = ns)) :
    fileOf (writeTranslation disk language ns file) l n = fileOf disk l n := by
  by_cases hl : l = language
  · subst hl
    have hn : n ≠ ns := fun hn => h ⟨rfl, hn⟩
    simp [fileOf, readTranslations_writeTranslation_self,
      aget_aset_ne _ _ _ _ hn]
  · simp [fileOf, readTranslations_writeTranslation_ne _ _ _ _ _ hl]

theorem writeTranslation_lang_isSome (disk : Disk) (language ns : String)
    (file : FlatMap) (l : String) (h : (aget disk l).isSome = true) :
    (aget (writeTranslation disk language ns file) l).isSome = true := by
  unfold writeTranslation
  exact aget_aset_isSome _ _ _ _ h

theorem readTranslations_ensure (disk : Disk) (languages : List String)
    (l : String) :
    readTranslations (ensureTranslationsStructure disk languages) l
      = readTranslations disk l := by
  induction languages generalizing disk with
  | nil => rfl
  | cons lang rest ih =>
      unfold ensureTranslationsStructure at ih ⊢
      simp only [List.foldl_cons]
      by_cases h : (aget disk lang).isSome = true
      · simp only [h, if_true]
        exact ih disk
      · simp only [h, if_false]
        rw [ih]
        by_cases hl : l = lang
        · subst hl
          have : aget disk l = none := by
            cases hx : aget disk l <;> simp [hx] at h ⊢
          simp [readTranslations, this]
        · simp [readTranslations, aget_aset_ne _ _ _ _ hl]

theorem ensure_preserves_isSome (disk : Disk) (languages : List String) (l : String)
    (h : (aget disk l).isSome = true) :
    (aget (ensureTranslationsStructure disk languages) l).isSome = true := by
  induction languages generalizing disk with
  | nil => exact h
  | cons lang rest ih =>
      unfold ensureTranslationsStructure at ih ⊢
      simp only [List.foldl_cons]
      by_cases hs : (aget disk lang).isSome = true
      · simp only [hs, if_true]
        exact ih disk h
      · simp only [hs, if_false]
        exact ih _ (aget_aset_isSome _ _ _ _ h)

theorem ensure_lang_isSome (disk : Disk) (languages : List String) (l : String)
    (h : l ∈ languages) :
    (aget (ensureTranslationsStructure disk languages) l).isSome = true := by
  induction languages generalizing disk with
  | nil => simp at h
  | cons lang rest ih =>
      unfold ensureTranslationsStructure
      simp only [List.foldl_cons]
      rcases List.mem_cons.mp h with hl | hl
      · subst hl
        by_cases hs : (aget disk l).isSome = true
        · simp only [hs, if_true]
          exact ensure_preserves_isSome disk rest l hs
        · simp only [hs, if_false]
          exact ensure_preserves_isSome _ rest l (by simp)
      · by_cases hs : (aget disk lang).isSome = true
        · simp only [hs, if_true]
          exact ih disk hl
        · simp only [hs, if_false]
          exact ih _ hl

theorem ensure_noop (disk : Disk) (languages : List String)
    (h : ∀ l ∈ languages, (aget disk l).isSome = true) :
    ensureTranslationsStructure disk languages = disk := by
  induction languages with
  | nil => rfl
  | cons lang rest ih =>
      unfold ensureTranslationsStructure at ih ⊢
      simp only [List.foldl_cons, h lang (by simp), if_true]
      exact ih (fun l hl => h l (by simp [hl]))

/-- SyncResult (utils.ts lines 149-154): the four action lists returned by
one reconciliation pass.  createdFiles and skippedFiles entries are
(language, namespace, path or reason) triples, cleanedKeys entries are
(language, namespace, key) triples. -/
structure SyncResult where
  createdFolders : List String
  createdFiles : List (String × String × String)
  skippedFiles : List (String × String × String)
  cleanedKeys : List (String × String × String)
deriving DecidableEq, Repr

/-- The initial, all-empty SyncResult. -/
def emptySyncResult : SyncResult := ⟨[], [], [], []⟩

/-- The path string produced by path.join(translationsPath, language,
namespace + ".json"). -/
def filePathOf (root language ns : String) : String :=
  root ++ "/" ++ language ++ "/" ++ ns ++ ".json"

/-- One iteration of the first loop of the file-exists branch: keep the
key when it exists in the source, otherwise record it as orphaned. -/
def cleanStep (sourceFile : FlatMap) (acc : FlatMap × List String)
    (kv : String × String) : FlatMap × List String :=
  if (aget sourceFile kv.1).isSome then (aset acc.1 kv.1 kv.2, acc.2)
  else (acc.1, acc.2 ++ [kv.1])

/-- The first loop of the file-exists branch of syncTranslationStructure:
keep only the target keys that exist in the source, and record each
orphaned key in order. -/
def cleanTargetFile (sourceFile targetFile : FlatMap) : FlatMap × List String :=
  targetFile.foldl (cleanStep sourceFile) ([], [])

/-- One iteration of the second loop of the file-exists branch: add the
source key with an empty value when it is absent from the cleaned map. -/
def fillStep (acc : FlatMap) (kv : String × String) : FlatMap :=
  if aget acc kv.1 = none then aset acc kv.1 "" else acc

/-- The second loop of the file-exists branch: add every source key
missing from the cleaned map with an empty-string value. -/
def fillMissingKeys (sourceFile cleaned : FlatMap) : FlatMap :=
  sourceFile.foldl fillStep cleaned

/-- The body of the namespace loop of syncTranslationStructure, processing
one (target language, source namespace) pair.  targetTranslations is the
per-language snapshot read before the namespace loop; the file-exists
check consults the live disk, as fs.existsSync does. -/
def syncNamespace (root : String) (sourceTranslations targetTranslations : LangDir)
    (language : String) (st : Disk × SyncResult) (ns : String) : Disk × SyncResult :=
  let disk := st.1
  let result := st.2
  let sourceFile := (aget sourceTranslations ns).getD []
  if (fileOf disk language ns).isSome then
    let targetFile := (aget targetTranslations ns).getD []
    let cleaned := cleanTargetFile sourceFile targetFile
    let cleanedFile := fillMissingKeys sourceFile cleaned.1
    let hasOrphanedKeys := ¬ cleaned.2.isEmpty
    let disk' := if hasOrphanedKeys then writeTranslation disk language ns cleanedFile else disk
    (disk',
      { result with
          cleanedKeys := result.cleanedKeys ++ cleaned.2.map (fun k => (language, ns, k)),
          skippedFiles := result.skippedFiles ++
            [(language, ns, if hasOrphanedKeys then "cleaned orphaned keys" else "already exists")] })
  else
    (writeTranslation disk language ns (createEmptyTranslationStructure sourceFile),
      { result with
          createdFiles := result.createdFiles ++ [(language, ns, filePathOf root language ns)] })

/-- The body of the target-language loop of syncTranslationStructure:
read the language's files once, then process every source namespace. -/
def syncLanguage (root : String) (sourceTranslations : LangDir)
    (sourceNamespaces : List String) (st : Disk × SyncResult) (language : String) :
    Disk × SyncResult :=
  let targetTranslations := readTranslations st.1 language
  sourceNamespaces.foldl (syncNamespace root sourceTranslations targetTranslations language) st

/-- syncTranslationStructure (utils.ts lines 163-255), returning the
mutated disk together with the SyncResult. -/
def syncTranslationStructure (root : String) (disk : Disk) (languages : List String)
    (sourceLanguage : String) : Disk × SyncResult :=
  let disk := ensureTranslationsStructure disk languages
  let sourceNamespaces := getNamespaces disk sourceLanguage
  if sourceNamespaces.isEmpty then (disk, emptySyncResult)
  else
    let sourceTranslations := readTranslations disk sourceLanguage
    let targetLanguages := languages.filter (fun lang => lang ≠ sourceLanguage)
    targetLanguages.foldl (syncLanguage root sourceTranslations sourceNamespaces)
      (disk, emptySyncResult)

/-- The pure per-file result of one sync pass on a (language, namespace)
pair: a missing file is created as the all-empty copy of the source keys;
an existing file is rewritten with the cleaned-and-filled map when an
orphaned key was found and left untouched otherwise. -/
def syncedFile (sourceFile : FlatMap) : Option FlatMap → FlatMap
  | none => createEmptyTranslationStructure sourceFile
  | some targetFile =>
      let cleaned := cleanTargetFile sourceFile targetFile
      if cleaned.2.isEmpty then targetFile else fillMissingKeys sourceFile cleaned.1

@[simp] theorem keys_nil {α : Type} : keys ([] : List (String × α)) = [] := rfl

@[simp] theorem keys_cons {α : Type} (kv : String × α) (m : List (String × α)) :
    keys (kv :: m) = kv.1 :: keys m := rfl

theorem keys_append {α : Type} (m1 m2 : List (String × α)) :
    keys (m1 ++ m2) = keys m1 ++ keys m2 := by
  simp [keys]

theorem fst_mem_keys {α : Type} {kv : String × α} {m : List (String × α)}
    (h : kv ∈ m) : kv.1 ∈ keys m :=
  List.mem_map_of_mem Prod.fst h

theorem aset_append {α : Type} (m : List (String × α)) (k : String) (v : α)
    (h : k ∉ keys m) : aset m k v = m ++ [(k, v)] := by
  induction m with
  | nil => rfl
  | cons hd tl ih =>
      obtain ⟨k', w⟩ := hd
      simp only [keys_cons, List.mem_cons] at h
      push_neg at h
      simp [aset, Ne.symm h.1, ih h.2]

theorem keys_createEmpty (m : FlatMap) :
    keys (createEmptyTranslationStructure m) = keys m := by
  simp [keys, createEmptyTranslationStructure]

theorem cleanFold_snd (s : FlatMap) (t : FlatMap) (acc : FlatMap × List String) :
    (t.foldl (cleanStep s) acc).2
      = acc.2 ++ (t.filter (fun kv => (aget s kv.1).isNone)).map Prod.fst := by
  induction t generalizing acc with
  | nil => simp
  | cons kv rest ih =>
      cases hx : aget s kv.1 with
      | none => simp [cleanStep, hx, ih, List.filter_cons]
      | some v => simp [cleanStep, hx, ih, List.filter_cons]

theorem cleanTargetFile_snd (s t : FlatMap) :
    (cleanTargetFile s t).2
      = (t.filter (fun kv => (aget s kv.1).isNone)).map Prod.fst := by
  simpa using cleanFold_snd s t ([], [])

theorem cleanTargetFile_snd_eq_nil_iff (s t : FlatMap) :
    (cleanTargetFile s t).2 = [] ↔ ∀ kv ∈ t, (aget s kv.1).isSome = true := by
  rw [cleanTargetFile_snd]
  simp only [List.map_eq_nil_iff, List.filter_eq_nil_iff]
  constructor
  · intro h kv hkv
    have := h kv hkv
    cases hx : aget s kv.1 with
    | none => simp [hx] at this
    | some v => simp
  · intro h kv hkv
    have := h kv hkv
    cases hx : aget s kv.1 with
    | none => simp [hx] at this
    | some v => simp [hx]

theorem cleanFold_fst_keys (s : FlatMap) (t : FlatMap) (acc : FlatMap × List String)
    (k : String) (h : k ∈ keys (t.foldl (cleanStep s) acc).1) :
    k ∈ keys acc.1 ∨ (aget s k).isSome = true := by
  induction t generalizing acc with
  | nil => exact Or.inl h
  | cons kv rest ih =>
      simp only [List.foldl_cons] at h
      cases hx : aget s kv.1 with
      | some v =>
          rcases ih _ (by rw [cleanStep] at h; simpa [hx] using h) with hk | hk
          · rcases (mem_keys_aset _ _ _ _).mp hk with hk2 | hk2
            · exact Or.inl hk2
            · subst hk2
              simp [hx]
          · exact Or.inr hk
      | none =>
          rcases ih _ (by rw [cleanStep] at h; simpa [hx] using h) with hk | hk
          · exact Or.inl hk
          · exact Or.inr hk

theorem cleanTargetFile_fst_keys (s t : FlatMap) (k : String)
    (h : k ∈ keys (cleanTargetFile s t).1) : (aget s k).isSome = true := by
  rcases cleanFold_fst_keys s t ([], []) k h with hk | hk
  · simp at hk
  · exact hk

theorem cleanFold_fst_eq_filter (s : FlatMap) (t : FlatMap)
    (hnd : (keys t).Nodup) (m : FlatMap) (os : List String)
    (hdisj : ∀ k ∈ keys m, k ∉ keys t) :
    (t.foldl (cleanStep s) (m, os)).1
      = m ++ t.filter (fun kv => (aget s kv.1).isSome) := by
  induction t generalizing m os with
  | nil => simp
  | cons kv rest ih =>
      simp only [keys_cons, List.nodup_cons] at hnd
      obtain ⟨hnotin, hnd'⟩ := hnd
      simp only [List.foldl_cons]
      cases hx : aget s kv.1 with
      | some v =>
          have hnotm : kv.1 ∉ keys m := fun hmem => hdisj kv.1 hmem (by simp)
          have hstep : cleanStep s (m, os) kv = (m ++ [(kv.1, kv.2)], os) := by
            simp [cleanStep, hx, aset_append m kv.1 kv.2 hnotm]
          rw [hstep, ih hnd' _ os ?_]
          · simp [List.filter_cons, hx]
          · intro k hk
            rw [keys_append] at hk
            rcases List.mem_append.mp hk with hk2 | hk2
            · intro hcon
              exact hdisj k hk2 (by simp [hcon])
            · simp at hk2
              subst hk2
              exact hnotin
      | none =>
          have hstep : cleanStep s (m, os) kv = (m, os ++ [kv.1]) := by
            simp [cleanStep, hx]
          rw [hstep, ih hnd' m _ ?_]
          · simp [List.filter_cons, hx]
          · intro k hk hcon
            exact hdisj k hk (by simp [hcon])

theorem cleanTargetFile_fst_eq_filter (s t : FlatMap) (hnd : (keys t).Nodup) :
    (cleanTargetFile s t).1 = t.filter (fun kv => (aget s kv.1).isSome) := by
  simpa using cleanFold_fst_eq_filter s t hnd [] [] (by simp)

theorem fillMissingKeys_keys_iff (s : FlatMap) (c : FlatMap) (k : String) :
    k ∈ keys (fillMissingKeys s c) ↔ k ∈ keys c ∨ k ∈ keys s := by
  unfold fillMissingKeys
  induction s generalizing c with
  | nil => simp
  | cons kv rest ih =>
      simp only [List.foldl_cons, keys_cons, List.mem_cons]
      cases hx : aget c kv.1 with
      | none =>
          have hstep : fillStep c kv = aset c kv.1 "" := by simp [fillStep, hx]
          rw [hstep, ih (aset c kv.1 "")]
          rw [mem_keys_aset]
          tauto
      | some v =>
          have hstep : fillStep c kv = c := by simp [fillStep, hx]
          have hmem : kv.1 ∈ keys c := by
            rw [← aget_isSome_iff_mem_keys, hx]
            rfl
          rw [hstep, ih c]
          constructor
          · rintro (hk | hk)
            · exact Or.inl hk
            · exact Or.inr (Or.inr hk)
          · rintro (hk | hk | hk)
            · exact Or.inl hk
            · subst hk
              exact Or.inl hmem
            · exact Or.inr hk

theorem fillMissingKeys_eq_append (s : FlatMap) (c : FlatMap)
    (hs : (keys s).Nodup) :
    fillMissingKeys s c
      = c ++ (s.filter (fun kv => (aget c kv.1).isNone)).map (fun kv => (kv.1, "")) := by
  unfold fillMissingKeys
  induction s generalizing c with
  | nil => simp
  | cons kv rest ih =>
      simp only [keys_cons, List.nodup_cons] at hs
      obtain ⟨hnotin, hnd⟩ := hs
      simp only [List.foldl_cons]
      cases hx : aget c kv.1 with
      | none =>
          have hnotc : kv.1 ∉ keys c := (aget_eq_none_iff c kv.1).mp hx
          have hstep : fillStep c kv = c ++ [(kv.1, "")] := by
            simp [fillStep, hx, aset_append c kv.1 "" hnotc]
          rw [hstep, ih _ hnd]
          have hfilter : rest.filter (fun kv2 => (aget (c ++ [(kv.1, "")]) kv2.1).isNone)
              = rest.filter (fun kv2 => (aget c kv2.1).isNone) := by
            apply List.filter_congr
            intro kv2 hkv2
            have hne : kv2.1 ≠ kv.1 := by
              intro hcon
              exact hnotin (hcon ▸ fst_mem_keys hkv2)
            rw [← aset_append c kv.1 "" hnotc, aget_aset_ne _ _ _ _ hne]
          rw [hfilter]
          simp [List.filter_cons, hx]
      | some v =>
          have hstep : fillStep c kv = c := by simp [fillStep, hx]
          rw [hstep, ih _ hnd]
          simp [List.filter_cons, hx]

theorem keys_syncedFile_sub (s : FlatMap) (topt : Option FlatMap) (k : String)
    (h : k ∈ keys (syncedFile s topt)) : (aget s k).isSome = true := by
  cases topt with
  | none =>
      rw [syncedFile, keys_createEmpty] at h
      rw [aget_isSome_iff_mem_keys]
      exact h
  | some t =>
      rw [syncedFile] at h
      by_cases he : (cleanTargetFile s t).2.isEmpty = true
      · simp only [he, if_true] at h
        have hall := (cleanTargetFile_snd_eq_nil_iff s t).mp (List.isEmpty_iff.mp he)
        simp only [keys, List.mem_map] at h
        obtain ⟨kv, hkv, hk⟩ := h
        subst hk
        exact hall kv hkv
      · simp only [he, if_false] at h
        rcases (fillMissingKeys_keys_iff s (cleanTargetFile s t).1 k).mp h with hk | hk
        · exact cleanTargetFile_fst_keys s t k hk
        · rw [aget_isSome_iff_mem_keys]
          exact hk

theorem keys_syncedFile_complete_none (s : FlatMap) (k : String)
    (h : k ∈ keys s) : k ∈ keys (syncedFile s none) := by
  rw [syncedFile, keys_createEmpty]
  exact h

theorem keys_syncedFile_complete_orphan (s t : FlatMap) (k : String)
    (horph : (cleanTargetFile s t).2.isEmpty = false) (h : k ∈ keys s) :
    k ∈ keys (syncedFile s (some t)) := by
  rw [syncedFile]
  simp only [horph, Bool.false_eq_true, if_false]
  exact (fillMissingKeys_keys_iff s (cleanTargetFile s t).1 k).mpr (Or.inr h)

theorem syncNamespace_frame (root : String) (srcT tgtT : LangDir) (language : String)
    (st : Disk × SyncResult) (ns : String) (l n : String)
    (h : ¬ (l = language ∧ n = ns)) :
    fileOf (syncNamespace root srcT tgtT language st ns).1 l n = fileOf st.1 l n := by
  unfold syncNamespace
  by_cases hex : (fileOf st.1 language ns).isSome = true
  · simp only [hex, if_true]
    by_cases he : (cleanTargetFile ((aget srcT ns).getD []) ((aget tgtT ns).getD [])).2.isEmpty = true
    · simp [he]
    · simp [he, fileOf_writeTranslation_ne _ _ _ _ _ _ h]
  · simp only [hex, if_false]
    simp [fileOf_writeTranslation_ne _ _ _ _ _ _ h]

theorem syncNamespace_read_frame (root : String) (srcT tgtT : LangDir) (language : String)
    (st : Disk × SyncResult) (ns : String) (l : String) (h : l ≠ language) :
    readTranslations (syncNamespace root srcT tgtT language st ns).1 l
      = readTranslations st.1 l := by
  unfold syncNamespace
  by_cases hex : (fileOf st.1 language ns).isSome = true
  · simp only [hex, if_true]
    by_cases he : (cleanTargetFile ((aget srcT ns).getD []) ((aget tgtT ns).getD [])).2.isEmpty = true
    · simp [he]
    · simp [he, readTranslations_writeTranslation_ne _ _ _ _ _ h]
  · simp only [hex, if_false]
    simp [readTranslations_writeTranslation_ne _ _ _ _ _ h]

theorem syncNamespace_lang_isSome (root : String) (srcT tgtT : LangDir) (language : String)
    (st : Disk × SyncResult) (ns : String) (l : String)
    (h : (aget st.1 l).isSome = true) :
    (aget (syncNamespace root srcT tgtT language st ns).1 l).isSome = true := by
  unfold syncNamespace
  by_cases hex : (fileOf st.1 language ns).isSome = true
  · simp only [hex, if_true]
    by_cases he : (cleanTargetFile ((aget srcT ns).getD []) ((aget tgtT ns).getD [])).2.isEmpty = true
    · simpa [he] using h
    · simpa [he] using writeTranslation_lang_isSome st.1 _ _ _ _ h
  · simp only [hex, if_false]
    simpa using writeTranslation_lang_isSome st.1 _ _ _ _ h

theorem syncNamespace_self (root : String) (srcT tgtT : LangDir) (language : String)
    (st : Disk × SyncResult) (ns : String)
    (hagree : fileOf st.1 language ns = aget tgtT ns) :
    fileOf (syncNamespace root srcT tgtT language st ns).1 language ns
      = some (syncedFile ((aget srcT ns).getD []) (aget tgtT ns)) := by
  unfold syncNamespace
  cases hx : aget tgtT ns with
  | none =>
      have hex : (fileOf st.1 language ns).isSome = false := by
        rw [hagree, hx]; rfl
      simp only [hex, Bool.false_eq_true, if_false]
      rw [fileOf_writeTranslation_self, syncedFile]
  | some t =>
      have hex : (fileOf st.1 language ns).isSome = true := by
        rw [hagree, hx]; rfl
      simp only [hex, if_true, Option.getD_some]
      rcases Bool.eq_false_or_eq_true
          ((cleanTargetFile ((aget srcT ns).getD []) t).2.isEmpty) with he | he <;>
        simp [he, fileOf_writeTranslation_self, syncedFile, hagree, hx]

theorem syncNSFold_read_frame (root : String) (srcT tgtT : LangDir) (language : String)
    (nss : List String) (st : Disk × SyncResult) (l : String) (h : l ≠ language) :
    readTranslations
        ((nss.foldl (syncNamespace root srcT tgtT language) st)).1 l
      = readTranslations st.1 l := by
  induction nss generalizing st with
  | nil => rfl
  | cons ns rest ih =>
      simp only [List.foldl_cons]
      rw [ih, syncNamespace_read_frame _ _ _ _ _ _ _ h]

theorem syncNSFold_frame (root : String) (srcT tgtT : LangDir) (language : String)
    (nss : List String) (st : Disk × SyncResult) (l n : String)
    (h : l ≠ language ∨ n ∉ nss) :
    fileOf ((nss.foldl (syncNamespace root srcT tgtT language) st)).1 l n
      = fileOf st.1 l n := by
  induction nss generalizing st with
  | nil => rfl
  | cons ns rest ih =>
      simp only [List.foldl_cons]
      have hrest : l ≠ language ∨ n ∉ rest := by
        rcases h with h | h
        · exact Or.inl h
        · exact Or.inr (fun hc => h (by simp [hc]))
      rw [ih _ hrest, syncNamespace_frame]
      rintro ⟨hl, hn⟩
      rcases h with h | h
      · exact h hl
      · exact h (by simp [hn])

theorem syncNSFold_lang_isSome (root : String) (srcT tgtT : LangDir) (language : String)
    (nss : List String) (st : Disk × SyncResult) (l : String)
    (h : (aget st.1 l).isSome = true) :
    (aget ((nss.foldl (syncNamespace root srcT tgtT language) st)).1 l).isSome = true := by
  induction nss generalizing st with
  | nil => exact h
  | cons ns rest ih =>
      simp only [List.foldl_cons]
      exact ih _ (syncNamespace_lang_isSome _ _ _ _ _ _ _ h)

theorem syncNSFold_self (root : String) (srcT tgtT : LangDir) (language : String)
    (nss : List String) (hnd : nss.Nodup) (st : Disk × SyncResult)
    (hagree : ∀ ns ∈ nss, fileOf st.1 language ns = aget tgtT ns)
    (ns : String) (hns : ns ∈ nss) :
    fileOf ((nss.foldl (syncNamespace root srcT tgtT language) st)).1 language ns
      = some (syncedFile ((aget srcT ns).getD []) (aget tgtT ns)) := by
  induction nss generalizing st with
  | nil => simp at hns
  | cons ns0 rest ih =>
      simp only [List.nodup_cons] at hnd
      simp only [List.foldl_cons]
      rcases List.mem_cons.mp hns with hh | hh
      · subst hh
        rw [syncNSFold_frame _ _ _ _ _ _ _ _ (Or.inr hnd.1)]
        exact syncNamespace_self _ _ _ _ _ _ (hagree ns (by simp))
      · apply ih hnd.2 _ _ hh
        intro ns' hns'
        rw [syncNamespace_frame]
        · exact hagree ns' (by simp [hns'])
        · rintro ⟨-, hn⟩
          subst hn
          exact hnd.1 hns'

theorem syncLanguage_self (root : String) (srcT : LangDir) (nss : List String)
    (hnd : nss.Nodup) (st : Disk × SyncResult) (language : String)
    (ns : String) (hns : ns ∈ nss) :
    fileOf (syncLanguage root srcT nss st language).1 language ns
      = some (syncedFile ((aget srcT ns).getD []) (fileOf st.1 language ns)) := by
  unfold syncLanguage
  exact syncNSFold_self root srcT _ language nss hnd st (fun _ _ => rfl) ns hns

theorem syncLanguage_read_frame (root : String) (srcT : LangDir) (nss : List String)
    (st : Disk × SyncResult) (language l : String) (h : l ≠ language) :
    readTranslations (syncLanguage root srcT nss st language).1 l
      = readTranslations st.1 l := by
  unfold syncLanguage
  exact syncNSFold_read_frame _ _ _ _ _ _ _ h

theorem syncLanguage_ns_frame (root : String) (srcT : LangDir) (nss : List String)
    (st : Disk × SyncResult) (language l n : String) (h : n ∉ nss) :
    fileOf (syncLanguage root srcT nss st language).1 l n = fileOf st.1 l n := by
  unfold syncLanguage
  by_cases hl : l = language
  · subst hl
    exact syncNSFold_frame _ _ _ _ _ _ _ _ (Or.inr h)
  · exact syncNSFold_frame _ _ _ _ _ _ _ _ (Or.inl hl)

theorem syncLanguage_lang_isSome (root : String) (srcT : LangDir) (nss : List String)
    (st : Disk × SyncResult) (language l : String)
    (h : (aget st.1 l).isSome = true) :
    (aget (syncLanguage root srcT nss st language).1 l).isSome = true := by
  unfold syncLanguage
  exact syncNSFold_lang_isSome _ _ _ _ _ _ _ h

theorem syncLangFold_read_frame (root : String) (srcT : LangDir) (nss : List String)
    (targets : List String) (st : Disk × SyncResult) (l : String) (h : l ∉ targets) :
    readTranslations ((targets.foldl (syncLanguage root srcT nss) st)).1 l
      = readTranslations st.1 l := by
  induction targets generalizing st with
  | nil => rfl
  | cons lang rest ih =>
      simp only [List.foldl_cons]
      have hl : l ≠ lang := fun hc => h (by simp [hc])
      rw [ih _ (fun hc => h (by simp [hc])), syncLanguage_read_frame _ _ _ _ _ _ hl]

theorem syncLangFold_ns_frame (root : String) (srcT : LangDir) (nss : List String)
    (targets : List String) (st : Disk × SyncResult) (l n : String) (h : n ∉ nss) :
    fileOf ((targets.foldl (syncLanguage root srcT nss) st)).1 l n = fileOf st.1 l n := by
  induction targets generalizing st with
  | nil => rfl
  | cons lang rest ih =>
      simp only [List.foldl_cons]
      rw [ih, syncLanguage_ns_frame _ _ _ _ _ _ _ h]

theorem syncLangFold_lang_isSome (root : String) (srcT : LangDir) (nss : List String)
    (targets : List String) (st : Disk × SyncResult) (l : String)
    (h : (aget st.1 l).isSome = true) :
    (aget ((targets.foldl (syncLanguage root srcT nss) st)).1 l).isSome = true := by
  induction targets generalizing st with
  | nil => exact h
  | cons lang rest ih =>
      simp only [List.foldl_cons]
      exact ih _ (syncLanguage_lang_isSome _ _ _ _ _ _ h)

theorem syncLangFold_self (root : String) (srcT : LangDir) (nss : List String)
    (hndN : nss.Nodup) (targets : List String) (hndL : targets.Nodup)
    (st : Disk × SyncResult) (l : String) (hl : l ∈ targets)
    (ns : String) (hns : ns ∈ nss) :
    fileOf ((targets.foldl (syncLanguage root srcT nss) st)).1 l ns
      = some (syncedFile ((aget srcT ns).getD []) (fileOf st.1 l ns)) := by
  induction targets generalizing st with
  | nil => simp at hl
  | cons lang rest ih =>
      simp only [List.nodup_cons] at hndL
      simp only [List.foldl_cons]
      rcases List.mem_cons.mp hl with hh | hh
      · subst hh
        have hfr : readTranslations
            ((rest.foldl (syncLanguage root srcT nss) (syncLanguage root srcT nss st l))).1 l
            = readTranslations (syncLanguage root srcT nss st l).1 l :=
          syncLangFold_read_frame _ _ _ _ _ _ hndL.1
        show fileOf _ l ns = _
        rw [fileOf, hfr, ← fileOf]
        exact syncLanguage_self root srcT nss hndN st l ns hns
      · rw [ih hndL.2 _ hh]
        have hl2 : l ≠ lang := fun hc => hndL.1 (hc ▸ hh)
        rw [fileOf, syncLanguage_read_frame _ _ _ _ _ _ hl2, ← fileOf]

theorem getNamespaces_ensure (disk : Disk) (languages : List String) (l : String) :
    getNamespaces (ensureTranslationsStructure disk languages) l = getNamespaces disk l := by
  unfold getNamespaces
  rw [readTranslations_ensure]

theorem fileOf_ensure (disk : Disk) (languages : List String) (l n : String) :
    fileOf (ensureTranslationsStructure disk languages) l n = fileOf disk l n := by
  unfold fileOf
  rw [readTranslations_ensure]

/-- Unfolding equation for syncTranslationStructure. -/
theorem syncTranslationStructure_eq (root : String) (disk : Disk)
    (languages : List String) (src : String) :
    syncTranslationStructure root disk languages src
      = if (getNamespaces (ensureTranslationsStructure disk languages) src).isEmpty = true
        then (ensureTranslationsStructure disk languages, emptySyncResult)
        else (languages.filter (fun lang => lang ≠ src)).foldl
          (syncLanguage root
            (readTranslations (ensureTranslationsStructure disk languages) src)
            (getNamespaces (ensureTranslationsStructure disk languages) src))
          (ensureTranslationsStructure disk languages, emptySyncResult) := rfl

/-- The central characterization of one sync pass: for every target
language and every source namespace, the resulting file on disk is
exactly the syncedFile of the source file and the previous target file. -/
theorem sync_fileOf (root : String) (disk : Disk) (languages : List String)
    (src : String) (hndL : languages.Nodup)
    (hndN : (getNamespaces disk src).Nodup) (l : String) (hl : l ∈ languages)
    (hlsrc : l ≠ src) (ns : String) (hns : ns ∈ getNamespaces disk src) :
    fileOf (syncTranslationStructure root disk languages src).1 l ns
      = some (syncedFile ((aget (readTranslations disk src) ns).getD [])
          (fileOf disk l ns)) := by
  have hne0 : (getNamespaces disk src).isEmpty = false := by
    rcases hgs : getNamespaces disk src with _ | ⟨a, rest⟩
    · rw [hgs] at hns
      simp at hns
    · rfl
  have htgt : l ∈ languages.filter (fun lang => lang ≠ src) := by
    rw [List.mem_filter]
    exact ⟨hl, by simp [hlsrc]⟩
  rw [syncTranslationStructure_eq]
  rw [getNamespaces_ensure disk languages src]
  rw [if_neg (by simp [hne0])]
  rw [readTranslations_ensure disk languages src]
  rw [syncLangFold_self root (readTranslations disk src) (getNamespaces disk src) hndN
    (languages.filter (fun lang => lang ≠ src)) (hndL.filter _)
    (ensureTranslationsStructure disk languages, emptySyncResult) l htgt ns hns]
  dsimp only
  rw [fileOf_ensure]

/-- Whatever sync does, a language that is not a target language keeps
its directory contents unchanged; in particular the source language. -/
theorem sync_read_frame (root : String) (disk : Disk) (languages : List String)
    (src : String) (l : String)
    (hl : l ∉ languages.filter (fun lang => lang ≠ src)) :
    readTranslations (syncTranslationStructure root disk languages src).1 l
      = readTranslations disk l := by
  rw [syncTranslationStructure_eq]
  rcases Bool.eq_false_or_eq_true
      ((getNamespaces (ensureTranslationsStructure disk languages) src).isEmpty) with he | he
  · rw [if_pos he]
    dsimp only
    exact readTranslations_ensure disk languages l
  · rw [if_neg (by simp [he])]
    rw [syncLangFold_read_frame _ _ _ _ _ _ hl]
    dsimp only
    exact readTranslations_ensure disk languages l

theorem sync_source_unchanged (root : String) (disk : Disk) (languages : List String)
    (src : String) :
    readTranslations (syncTranslationStructure root disk languages src).1 src
      = readTranslations disk src := by
  apply sync_read_frame
  intro h
  rw [List.mem_filter] at h
  simp at h

theorem sync_lang_isSome (root : String) (disk : Disk) (languages : List String)
    (src : String) (l : String) (hl : l ∈ languages) :
    (aget (syncTranslationStructure root disk languages src).1 l).isSome = true := by
  have hens : (aget (ensureTranslationsStructure disk languages) l).isSome = true :=
    ensure_lang_isSome disk languages l hl
  rw [syncTranslationStructure_eq]
  rcases Bool.eq_false_or_eq_true
      ((getNamespaces (ensureTranslationsStructure disk languages) src).isEmpty) with he | he
  · rw [if_pos he]
    exact hens
  · rw [if_neg (by simp [he])]
    exact syncLangFold_lang_isSome _ _ _ _ _ _ hens

/-- Append entries to the skippedFiles list of a SyncResult. -/
def addSkipped (r : SyncResult) (xs : List (String × String × String)) : SyncResult :=
  { r with skippedFiles := r.skippedFiles ++ xs }

theorem syncNamespace_noop (root : String) (srcT tgtT : LangDir) (language : String)
    (st : Disk × SyncResult) (ns : String) (t : FlatMap)
    (hx : aget tgtT ns = some t)
    (hagree : fileOf st.1 language ns = aget tgtT ns)
    (hclean : ∀ kv ∈ t, (aget ((aget srcT ns).getD []) kv.1).isSome = true) :
    syncNamespace root srcT tgtT language st ns
      = (st.1, addSkipped st.2 [(language, ns, "already exists")]) := by
  unfold syncNamespace
  have hex : (fileOf st.1 language ns).isSome = true := by
    rw [hagree, hx]; rfl
  have hnil : (cleanTargetFile ((aget srcT ns).getD []) t).2 = [] := by
    rw [cleanTargetFile_snd_eq_nil_iff]
    exact hclean
  simp [hex, hx, hnil, addSkipped]

theorem syncNSFold_noop (root : String) (srcT tgtT : LangDir) (language : String)
    (nss : List String) (st : Disk × SyncResult)
    (hagree : ∀ ns ∈ nss, fileOf st.1 language ns = aget tgtT ns)
    (h : ∀ ns ∈ nss, ∃ t, aget tgtT ns = some t ∧
        (∀ kv ∈ t, (aget ((aget srcT ns).getD []) kv.1).isSome = true)) :
    nss.foldl (syncNamespace root srcT tgtT language) st
      = (st.1, addSkipped st.2 (nss.map (fun ns => (language, ns, "already exists")))) := by
  induction nss generalizing st with
  | nil => simp [addSkipped]
  | cons ns rest ih =>
      simp only [List.foldl_cons]
      obtain ⟨t, hx, hclean⟩ := h ns (by simp)
      rw [syncNamespace_noop root srcT tgtT language st ns t hx (hagree ns (by simp)) hclean]
      have hrec := ih (st.1, addSkipped st.2 [(language, ns, "already exists")])
        (fun ns' hns' => hagree ns' (by simp [hns']))
        (fun ns' hns' => h ns' (by simp [hns']))
      rw [hrec]
      simp [addSkipped]

theorem syncLanguage_noop (root : String) (srcT : LangDir) (nss : List String)
    (st : Disk × SyncResult) (language : String)
    (h : ∀ ns ∈ nss, ∃ t, fileOf st.1 language ns = some t ∧
        (∀ kv ∈ t, (aget ((aget srcT ns).getD []) kv.1).isSome = true)) :
    syncLanguage root srcT nss st language
      = (st.1, addSkipped st.2 (nss.map (fun ns => (language, ns, "already exists")))) := by
  unfold syncLanguage
  apply syncNSFold_noop
  · intro ns _
    rfl
  · intro ns hns
    obtain ⟨t, hfile, hclean⟩ := h ns hns
    exact ⟨t, hfile, hclean⟩

theorem syncLangFold_noop (root : String) (srcT : LangDir) (nss : List String)
    (targets : List String) (st : Disk × SyncResult)
    (h : ∀ l ∈ targets, ∀ ns ∈ nss, ∃ t, fileOf st.1 l ns = some t ∧
        (∀ kv ∈ t, (aget ((aget srcT ns).getD []) kv.1).isSome = true)) :
    targets.foldl (syncLanguage root srcT nss) st
      = (st.1, addSkipped st.2
          (targets.flatMap (fun l => nss.map (fun ns => (l, ns, "already exists"))))) := by
  induction targets generalizing st with
  | nil => simp [addSkipped]
  | cons lang rest ih =>
      simp only [List.foldl_cons]
      rw [syncLanguage_noop root srcT nss st lang (h lang (by simp))]
      have hrec := ih
        (st.1, addSkipped st.2 (nss.map (fun ns => (lang, ns, "already exists"))))
        (fun l hl ns hns => h l (by simp [hl]) ns hns)
      rw [hrec]
      simp [addSkipped]

/-- A second sync pass with no intervening changes touches nothing on
disk, creates nothing and cleans nothing: its whole result is the
skippedFiles list with one "already exists" entry per (target language,
source namespace) pair. -/
theorem sync_second_run (root : String) (disk : Disk) (languages : List String)
    (src : String) (hndL : languages.Nodup)
    (hndN : (getNamespaces disk src).Nodup) :
    syncTranslationStructure root (syncTranslationStructure root disk languages src).1
        languages src
      = ((syncTranslationStructure root disk languages src).1,
         addSkipped emptySyncResult
           ((languages.filter (fun lang => lang ≠ src)).flatMap
             (fun l => (getNamespaces disk src).map
               (fun ns => (l, ns, "already exists"))))) := by
  set d1 := (syncTranslationStructure root disk languages src).1 with hd1
  have hsrc : readTranslations d1 src = readTranslations disk src :=
    sync_source_unchanged root disk languages src
  have hgn1 : getNamespaces d1 src = getNamespaces disk src := by
    unfold getNamespaces
    rw [hsrc]
  have hdirs : ∀ lang ∈ languages, (aget d1 lang).isSome = true :=
    fun lang hl => sync_lang_isSome root disk languages src lang hl
  have hens : ensureTranslationsStructure d1 languages = d1 :=
    ensure_noop _ _ hdirs
  rw [syncTranslationStructure_eq root d1 languages src, hens, hgn1, hsrc]
  rcases Bool.eq_false_or_eq_true (getNamespaces disk src).isEmpty with hS | hS
  · rw [if_pos hS]
    have hnil : getNamespaces disk src = [] := List.isEmpty_iff.mp hS
    simp [hnil, addSkipped, emptySyncResult]
  · rw [if_neg (by simp [hS])]
    apply syncLangFold_noop
    intro l hl ns hns
    rw [List.mem_filter] at hl
    have hlsrc : l ≠ src := by simpa using hl.2
    refine ⟨syncedFile ((aget (readTranslations disk src) ns).getD [])
      (fileOf disk l ns), ?_, ?_⟩
    · exact sync_fileOf root disk languages src hndL hndN l hl.1 hlsrc ns hns
    · intro kv hkv
      exact keys_syncedFile_sub _ _ _ (fst_mem_keys hkv)

/-- The JavaScript whitespace characters recognized by
String.prototype.trim: tab, line feed, vertical tab, form feed, carriage
return, space, no-break space, BOM, the Unicode space separators and the
line and paragraph separators. -/
def jsWhitespace : List Char :=
  ['\t', '\n', '\u000b', '\u000c', '\r', ' ', '\u00a0', '\ufeff',
   '\u1680', '\u2000', '\u2001', '\u2002', '\u2003', '\u2004', '\u2005',
   '\u2006', '\u2007', '\u2008', '\u2009', '\u200a', '\u2028', '\u2029',
   '\u202f', '\u205f', '\u3000']

def jsIsWhitespace (c : Char) : Bool := jsWhitespace.contains c

/-- JavaScript String.prototype.trim: strip leading and trailing
whitespace. -/
def jsTrim (s : String) : String :=
  String.mk (((s.data.dropWhile jsIsWhitespace).reverse.dropWhile jsIsWhitespace).reverse)

/-- An entry of the missing or empty list of a ValidationResult:
(namespace, key, language, sourceValue); and of the orphaned list:
(namespace, key, language, target value). -/
abbrev ValidationEntry := String × String × String × String

/-- ValidationResult (validate.ts). -/
structure ValidationResult where
  valid : Bool
  missing : List ValidationEntry
  empty : List ValidationEntry
  orphaned : List ValidationEntry
deriving DecidableEq, Repr

/-- validateTranslations (validate.ts lines 10-132), modulo console
output: read the source language, run the Sync Engine, then re-read each
target language and classify every source key as missing or empty and
every target-only key as orphaned.  The configured language list drives
iteration.  Returns the report together with the post-sync disk. -/
def validateTranslations (root : String) (disk : Disk) (cfgLanguages : List String)
    (src : String) : ValidationResult × Disk :=
  let sourceTranslations := readTranslations disk src
  let sourceNamespaces := getNamespaces disk src
  let languages := cfgLanguages.filter (fun lang => lang ≠ src)
  let disk2 := (syncTranslationStructure root disk cfgLanguages src).1
  let missing := languages.flatMap (fun language =>
    sourceNamespaces.flatMap (fun ns =>
      let sourceKeys := (aget sourceTranslations ns).getD []
      let targetKeys := (aget (readTranslations disk2 language) ns).getD []
      sourceKeys.filterMap (fun kv =>
        if (aget targetKeys kv.1).isNone then some (ns, kv.1, language, kv.2) else none)))
  let empty := languages.flatMap (fun language =>
    sourceNamespaces.flatMap (fun ns =>
      let sourceKeys := (aget sourceTranslations ns).getD []
      let targetKeys := (aget (readTranslations disk2 language) ns).getD []
      sourceKeys.filterMap (fun kv =>
        match aget targetKeys kv.1 with
        | none => none
        | some tv => if jsTrim tv = "" then some (ns, kv.1, language, kv.2) else none)))
  let orphaned := languages.flatMap (fun language =>
    sourceNamespaces.flatMap (fun ns =>
      let sourceKeys := (aget sourceTranslations ns).getD []
      let targetKeys := (aget (readTranslations disk2 language) ns).getD []
      targetKeys.filterMap (fun kv =>
        if (aget sourceKeys kv.1).isNone then some (ns, kv.1, language, kv.2) else none)))
  (⟨missing.isEmpty && empty.isEmpty && orphaned.isEmpty, missing, empty, orphaned⟩, disk2)

/-- An entry of the duplicates list of findDuplicates:
(namespace, key, commonKey, value). -/
abbrev DuplicateEntry := String × String × String × String

/-- DuplicateKeysResult (find-duplicates.ts). -/
structure DuplicateKeysResult where
  duplicates : List DuplicateEntry
  totalKeysChecked : Nat
deriving DecidableEq, Repr

/-- The reverse index of the common namespace: value to first-seen key
(insert only when the value is not indexed yet). -/
def buildValueToCommonKey (commonValues : FlatMap) : List (String × String) :=
  commonValues.foldl
    (fun m kv => if (aget m kv.2).isSome then m else aset m kv.2 kv.1) []

/-- findDuplicates (find-duplicates.ts lines 10-67), modulo console
output: index the source language's "common" namespace by value, then
report every key of every other namespace whose value hits the index.
The guard on the looked-up common key is JavaScript truthiness, so an
empty-string common key is treated as no hit. -/
def findDuplicates (disk : Disk) (src : String) : DuplicateKeysResult :=
  let namespaces := getNamespaces disk src
  let sourceTranslations := readTranslations disk src
  let commonValues := (aget sourceTranslations "common").getD []
  if (keys commonValues).length = 0 then ⟨[], 0⟩
  else
    let valueToCommonKey := buildValueToCommonKey commonValues
    let duplicates := namespaces.flatMap (fun ns =>
      if ns = "common" then []
      else
        let nsValues := (aget sourceTranslations ns).getD []
        nsValues.filterMap (fun kv =>
          match aget valueToCommonKey kv.2 with
          | none => none
          | some commonKey =>
              if commonKey = "" then none else some (ns, kv.1, commonKey, kv.2)))
    let totalKeysChecked := (namespaces.map (fun ns =>
      if ns = "common" then 0
      else ((aget sourceTranslations ns).getD []).length)).sum
    ⟨duplicates, totalKeysChecked⟩

/-- The six CLDR plural suffixes (generate-types.ts line 7). -/
def PLURAL_SUFFIXES : List String :=
  ["_zero", "_one", "_two", "_few", "_many", "_other"]

/-- JavaScript String.prototype.endsWith as a character-list suffix
test. -/
def jsEndsWith (s sfx : String) : Bool := sfx.data.isSuffixOf s.data

/-- key.slice(0, -sfx.length): drop the suffix's length of characters
from the end. -/
def stripSuffixChars (s : String) (n : Nat) : String :=
  String.mk (s.data.take (s.data.length - n))

/-- The loop body of extractPluralBaseKeys: find the first matching
plural suffix of the key (the loop breaks after a hit), strip it, and add
the base when it is non-empty, not an input key (keySet) and not already
collected (the Set deduplicates). -/
def pluralStep (inputKeys : List String) (baseKeys : List String) (key : String) :
    List String :=
  match PLURAL_SUFFIXES.find? (fun sfx => jsEndsWith key sfx) with
  | some sfx =>
      let baseKey := stripSuffixChars key sfx.data.length
      if baseKey ≠ "" ∧ baseKey ∉ inputKeys ∧ baseKey ∉ baseKeys
      then baseKeys ++ [baseKey]
      else baseKeys
  | none => baseKeys

/-- extractPluralBaseKeys (generate-types.ts lines 13-30): for each key
ending in a CLDR plural suffix, strip the suffix; keep the base when it
is non-empty and not itself an input key; deduplicate. -/
def extractPluralBaseKeys (inputKeys : List String) : List String :=
  inputKeys.foldl (pluralStep inputKeys) []

/-- One entry of the missing/empty work list consumed by
autoFillTranslations: namespace, key and the source-language value. -/
structure FillItem where
  ns : String
  key : String
  sourceValue : String
deriving DecidableEq, Repr

/-- The write-back performed for one successfully translated item
(auto-fill.ts lines 156-170): re-read the language, default the
namespace object, set the key, sort the keys and write the file. -/
def applyTranslationWrite (disk : Disk) (language : String) (item : FillItem)
    (translated : String) : Disk :=
  let translations := readTranslations disk language
  let nsMap := (aget translations item.ns).getD []
  let updated := aset nsMap item.key translated
  let sorted := sortKeys updated
  writeTranslation disk language item.ns sorted

/-- The body of the per-item worker of autoFillTranslations (auto-fill.ts
lines 138-185): the translation capability either yields a translation or
throws; the try/catch converts a throw into a success=false record,
leaving the disk untouched, and the batch goes on. -/
def processItem (dryRun : Bool) (translate : FillItem → Except String String)
    (language : String) (st : Disk × List (FillItem × Bool)) (item : FillItem) :
    Disk × List (FillItem × Bool) :=
  match translate item with
  | Except.error _ => (st.1, st.2 ++ [(item, false)])
  | Except.ok t =>
      ((if dryRun then st.1 else applyTranslationWrite st.1 language item t),
       st.2 ++ [(item, true)])

/-- Processing of one language's capped item list by autoFillTranslations,
with the bounded-concurrency fan-out modelled as in-order processing. -/
def processBatch (dryRun : Bool) (translate : FillItem → Except String String)
    (language : String) (disk : Disk) (items : List FillItem) :
    Disk × List (FillItem × Bool) :=
  items.foldl (processItem dryRun translate language) (disk, [])

/-- totalTranslated (auto-fill.ts line 189): the number of successful
records. -/
def totalTranslated (results : List (FillItem × Bool)) : Nat :=
  (results.filter (fun r => r.2)).length

theorem processFold_acc (dryRun : Bool) (translate : FillItem → Except String String)
    (language : String) (items : List FillItem) (st : Disk × List (FillItem × Bool)) :
    items.foldl (processItem dryRun translate language) st
      = ((items.foldl (processItem dryRun translate language) (st.1, [])).1,
         st.2 ++ (items.foldl (processItem dryRun translate language) (st.1, [])).2) := by
  induction items generalizing st with
  | nil => simp
  | cons item rest ih =>
      rcases hx : translate item with e | t
      · simp only [List.foldl_cons, processItem, hx]
        rw [ih (st.1, st.2 ++ [(item, false)]), ih (st.1, [] ++ [(item, false)])]
        simp
      · simp only [List.foldl_cons, processItem, hx]
        generalize (if dryRun = true then st.1 else applyTranslationWrite st.1 language item t) = d
        rw [ih (d, st.2 ++ [(item, true)]), ih (d, [] ++ [(item, true)])]
        simp

theorem string_ext {s t : String} (h : s.data = t.data) : s = t := by
  cases s
  cases t
  exact congrArg String.mk h

theorem jsEndsWith_iff (k sfx : String) :
    jsEndsWith k sfx = true ↔ sfx.data <:+ k.data := by
  unfold jsEndsWith
  exact List.isSuffixOf_iff_suffix

theorem jsEndsWith_append (b sfx : String) : jsEndsWith (b ++ sfx) sfx = true := by
  rw [jsEndsWith_iff, String.data_append]
  exact List.suffix_append _ _

theorem stripSuffix_append (b sfx : String) :
    stripSuffixChars (b ++ sfx) sfx.data.length = b := by
  apply string_ext
  unfold stripSuffixChars
  rw [String.data_append]
  simp

theorem ends_decomp (k sfx : String) (h : jsEndsWith k sfx = true) :
    k = stripSuffixChars k sfx.data.length ++ sfx := by
  rw [jsEndsWith_iff] at h
  obtain ⟨t, ht⟩ := h
  apply string_ext
  rw [String.data_append]
  unfold stripSuffixChars
  rw [← ht]
  simp

theorem pluralSuffix_unique (k : String) (s1 s2 : String)
    (h1 : s1 ∈ PLURAL_SUFFIXES) (h2 : s2 ∈ PLURAL_SUFFIXES)
    (e1 : jsEndsWith k s1 = true) (e2 : jsEndsWith k s2 = true) : s1 = s2 := by
  rw [jsEndsWith_iff] at e1 e2
  have hpair : ∀ a ∈ PLURAL_SUFFIXES, ∀ b ∈ PLURAL_SUFFIXES,
      a.data <:+ b.data → a = b := by decide
  rcases List.suffix_or_suffix_of_suffix e1 e2 with h | h
  · exact hpair s1 h1 s2 h2 h
  · exact (hpair s2 h2 s1 h1 h).symm

theorem pluralFold_mem (ks : List String) (l : List String) (acc : List String)
    (b : String) :
    b ∈ l.foldl (pluralStep ks) acc ↔
      b ∈ acc ∨ (b ≠ "" ∧ b ∉ ks ∧
        ∃ sfx ∈ PLURAL_SUFFIXES, ∃ k ∈ l, k = b ++ sfx) := by
  induction l generalizing acc with
  | nil => simp
  | cons k rest ih =>
      simp only [List.foldl_cons]
      cases hf : PLURAL_SUFFIXES.find? (fun sfx => jsEndsWith k sfx) with
      | none =>
          have hnone : ∀ sfx ∈ PLURAL_SUFFIXES, ¬ (jsEndsWith k sfx = true) := by
            intro sfx hsfx
            have := List.find?_eq_none.mp hf sfx hsfx
            simpa using this
          have hstep : pluralStep ks acc k = acc := by
            unfold pluralStep
            rw [hf]
          rw [hstep, ih acc]
          constructor
          · rintro (h | ⟨hne, hnk, sfx, hsfx, k', hk', heq⟩)
            · exact Or.inl h
            · exact Or.inr ⟨hne, hnk, sfx, hsfx, k', by simp [hk'], heq⟩
          · rintro (h | ⟨hne, hnk, sfx, hsfx, k', hk', heq⟩)
            · exact Or.inl h
            · rcases List.mem_cons.mp hk' with hkk | hkk
              · exfalso
                apply hnone sfx hsfx
                rw [← hkk, heq]
                exact jsEndsWith_append b sfx
              · exact Or.inr ⟨hne, hnk, sfx, hsfx, k', hkk, heq⟩
      | some sfx =>
          have hsfx_mem : sfx ∈ PLURAL_SUFFIXES := List.mem_of_find?_eq_some hf
          have hsfx_ends : jsEndsWith k sfx = true := by
            have := List.find?_some hf
            simpa using this
          have hk : k = stripSuffixChars k sfx.data.length ++ sfx :=
            ends_decomp k sfx hsfx_ends
          by_cases hcond : stripSuffixChars k sfx.data.length ≠ ""
              ∧ stripSuffixChars k sfx.data.length ∉ ks
              ∧ stripSuffixChars k sfx.data.length ∉ acc
          · have hstep : pluralStep ks acc k
                = acc ++ [stripSuffixChars k sfx.data.length] := by
              unfold pluralStep
              rw [hf]
              exact if_pos hcond
            rw [hstep, ih _]
            constructor
            · rintro (h | ⟨hne, hnk, sfx', hsfx', k', hk', heq⟩)
              · rcases List.mem_append.mp h with h2 | h2
                · exact Or.inl h2
                · simp only [List.mem_singleton] at h2
                  subst h2
                  exact Or.inr ⟨hcond.1, hcond.2.1, sfx, hsfx_mem, k, by simp, hk⟩
              · exact Or.inr ⟨hne, hnk, sfx', hsfx', k', by simp [hk'], heq⟩
            · rintro (h | ⟨hne, hnk, sfx', hsfx', k', hk', heq⟩)
              · exact Or.inl (List.mem_append.mpr (Or.inl h))
              · rcases List.mem_cons.mp hk' with hkk | hkk
                · subst hkk
                  have hsfx_eq : sfx' = sfx := by
                    apply pluralSuffix_unique k' sfx' sfx hsfx' hsfx_mem _ hsfx_ends
                    rw [heq]
                    exact jsEndsWith_append b sfx'
                  subst hsfx_eq
                  have hb : b = stripSuffixChars k' sfx'.data.length := by
                    rw [heq, stripSuffix_append]
                  subst hb
                  exact Or.inl (List.mem_append.mpr (Or.inr (by simp)))
                · exact Or.inr ⟨hne, hnk, sfx', hsfx', k', hkk, heq⟩
          · have hstep : pluralStep ks acc k = acc := by
              unfold pluralStep
              rw [hf]
              exact if_neg hcond
            rw [hstep, ih acc]
            constructor
            · rintro (h | ⟨hne, hnk, sfx', hsfx', k', hk', heq⟩)
              · exact Or.inl h
              · exact Or.inr ⟨hne, hnk, sfx', hsfx', k', by simp [hk'], heq⟩
            · rintro (h | ⟨hne, hnk, sfx', hsfx', k', hk', heq⟩)
              · exact Or.inl h
              · rcases List.mem_cons.mp hk' with hkk | hkk
                · subst hkk
                  have hsfx_eq : sfx' = sfx := by
                    apply pluralSuffix_unique k' sfx' sfx hsfx' hsfx_mem _ hsfx_ends
                    rw [heq]
                    exact jsEndsWith_append b sfx'
                  subst hsfx_eq
                  have hb : b = stripSuffixChars k' sfx'.data.length := by
                    rw [heq, stripSuffix_append]
                  push_neg at hcond
                  have hacc : stripSuffixChars k' sfx'.data.length ∈ acc := by
                    apply hcond
                    · rw [← hb]; exact hne
                    · rw [← hb]; exact hnk
                  rw [hb]
                  exact Or.inl hacc
                · exact Or.inr ⟨hne, hnk, sfx', hsfx', k', hkk, heq⟩

theorem pluralFold_nodup (ks : List String) (l : List String) (acc : List String)
    (hacc : acc.Nodup) : (l.foldl (pluralStep ks) acc).Nodup := by
  induction l generalizing acc with
  | nil => exact hacc
  | cons k rest ih =>
      simp only [List.foldl_cons]
      apply ih
      unfold pluralStep
      cases hf : PLURAL_SUFFIXES.find? (fun sfx => jsEndsWith k sfx) with
      | none => exact hacc
      | some sfx =>
          dsimp only
          by_cases hcond : stripSuffixChars k sfx.data.length ≠ ""
              ∧ stripSuffixChars k sfx.data.length ∉ ks
              ∧ stripSuffixChars k sfx.data.length ∉ acc
          · rw [if_pos hcond]
            simp only [List.nodup_append, List.nodup_singleton, List.disjoint_singleton]
            exact ⟨hacc, trivial, hcond.2.2⟩
          · rw [if_neg hcond]
            exact hacc

theorem buildIndexFold_aget (common : FlatMap) (m : List (String × String)) (v : String) :
    aget (common.foldl
        (fun m kv => if (aget m kv.2).isSome then m else aset m kv.2 kv.1) m) v
      = match aget m v with
        | some k => some k
        | none => (common.find? (fun kv => kv.2 = v)).map Prod.fst := by
  induction common generalizing m with
  | nil =>
      cases hm : aget m v <;> simp [hm]
  | cons kv rest ih =>
      simp only [List.foldl_cons]
      by_cases hv : kv.2 = v
      · subst hv
        by_cases hm : (aget m kv.2).isSome = true
        · rw [if_pos hm, ih m]
          obtain ⟨k, hk⟩ := Option.isSome_iff_exists.mp hm
          rw [hk]
        · rw [if_neg hm, ih _]
          have : aget (aset m kv.2 kv.1) kv.2 = some kv.1 := aget_aset_self m kv.2 kv.1
          rw [this]
          have hfind : List.find? (fun kv2 => kv2.2 = kv.2) (kv :: rest) = some kv :=
            List.find?_cons_of_pos _ (by simp)
          have hmnone : aget m kv.2 = none := by
            cases hx : aget m kv.2 with
            | none => rfl
            | some k => rw [hx] at hm; simp at hm
          rw [hmnone, hfind]
          simp
      · have hfind : List.find? (fun kv2 => kv2.2 = v) (kv :: rest)
            = List.find? (fun kv2 => kv2.2 = v) rest := by
          rw [List.find?_cons_of_neg]
          simp [hv]
        have hstep : aget (if (aget m kv.2).isSome then m else aset m kv.2 kv.1) v
            = aget m v := by
          by_cases hm : (aget m kv.2).isSome = true
          · rw [if_pos hm]
          · rw [if_neg hm]
            exact aget_aset_ne m kv.2 v kv.1 (fun hc => hv hc.symm)
        by_cases hm : (aget m kv.2).isSome = true
        · rw [if_pos hm, ih m, hfind]
        · rw [if_neg hm, ih _, hfind]
          rw [if_neg hm] at hstep
          rw [hstep]

theorem buildIndex_aget (common : FlatMap) (v : String) :
    aget (buildValueToCommonKey common) v
      = (common.find? (fun kv => kv.2 = v)).map Prod.fst := by
  unfold buildValueToCommonKey
  rw [buildIndexFold_aget common [] v]
  simp

/-- After sync, a file at a (target language, source namespace) slot has
only keys of the corresponding source file. -/
theorem sync_target_keys_sub (root : String) (disk : Disk) (languages : List String)
    (src : String) (hndL : languages.Nodup)
    (hndN : (getNamespaces disk src).Nodup) (l : String) (hl : l ∈ languages)
    (hlsrc : l ≠ src) (ns : String) (hns : ns ∈ getNamespaces disk src) (k : String)
    (hk : k ∈ keys ((fileOf (syncTranslationStructure root disk languages src).1 l ns).getD [])) :
    (aget ((aget (readTranslations disk src) ns).getD []) k).isSome = true := by
  rw [sync_fileOf root disk languages src hndL hndN l hl hlsrc ns hns] at hk
  exact keys_syncedFile_sub _ _ _ hk

/-- Example state: the source language has one namespace, a target
language carries an extra namespace file absent from the source. -/
def exampleDisk1 : Disk :=
  [("en", [("common", [("hello", "Hello")])]),
   ("fr", [("common", [("hello", "Bonjour")]),
           ("test", [("orphanedNamespace", "x")])])]

/-- Example state: the target file exists, has no orphaned key, and lacks
the source key "B". -/
def exampleDisk2 : Disk :=
  [("en", [("ns1", [("A", "x"), ("B", "y")])]),
   ("fr", [("ns1", [("A", "a")])])]

/-- Example state: the target file has an orphaned key "zz", and the
source keys are not in lexicographic order. -/
def exampleDisk3 : Disk :=
  [("en", [("ns1", [("b", "1"), ("a", "2")])]),
   ("fr", [("ns1", [("b", "x"), ("zz", "y")])])]

/-- Example state: the common namespace holds the value "Save" under the
empty-string key, and another namespace repeats that value. -/
def exampleDisk4 : Disk :=
  [("en", [("common", [("", "Save")]),
           ("buttons", [("SAVE_BTN", "Save")])])]

/-- Example state: the target has an orphaned key. -/
def exampleDisk5 : Disk :=
  [("en", [("common", [("HELLO", "Hello")])]),
   ("fr", [("common", [("HELLO", "Bonjour"), ("OLD", "x")])])]

/-- C1: the claim says a target namespace file absent from the source's
namespace set is deleted during sync and recorded in removedNamespaces.
The code has no such step: on exampleDisk1 the namespace "test" is not a
source namespace, yet after sync the file fr/test.json is still on disk
with its old contents, and the returned SyncResult (whose type has no
removedNamespaces field at all) records only skipped and created files.
This evaluates the embedded sync at the failing input. -/
theorem c1_sync_does_not_remove_orphaned_namespace :
    "test" ∉ getNamespaces exampleDisk1 "en"
    ∧ fileOf (syncTranslationStructure "locales" exampleDisk1 ["en", "fr"] "en").1
        "fr" "test" = some [("orphanedNamespace", "x")]
    ∧ (syncTranslationStructure "locales" exampleDisk1 ["en", "fr"] "en").2
        = { createdFolders := [], createdFiles := [],
            skippedFiles := [("fr", "common", "already exists")], cleanedKeys := [] } := by
  decide

/-- C2 counterexample: the claim says that after sync the on-disk target
map contains every source key.  On exampleDisk2 the target file exists
and has no orphaned key, so sync computes the missing-key fill but never
writes it: the source key "B" is still absent from disk after sync. -/
theorem c2_missing_key_not_persisted :
    ("B", "y") ∈ (aget (readTranslations exampleDisk2 "en") "ns1").getD []
    ∧ aget ((fileOf (syncTranslationStructure "r" exampleDisk2 ["en", "fr"] "en").1
        "fr" "ns1").getD []) "B" = none := by
  decide

/-- C2 (amended): after sync, the on-disk flat key map of every (target
language, source namespace) slot contains no key absent from the source
map; and it contains every source key provided the file did not exist
before the pass or an orphaned key was dropped (an existing file with
only missing keys is left untouched). -/
theorem c2_sync_key_containment (root : String) (disk : Disk)
    (languages : List String) (src : String) (hndL : languages.Nodup)
    (hndN : (getNamespaces disk src).Nodup) (l : String) (hl : l ∈ languages)
    (hlsrc : l ≠ src) (ns : String) (hns : ns ∈ getNamespaces disk src) :
    (∀ k ∈ keys ((fileOf (syncTranslationStructure root disk languages src).1 l ns).getD []),
        k ∈ keys ((aget (readTranslations disk src) ns).getD []))
    ∧ (fileOf disk l ns = none →
        ∀ k ∈ keys ((aget (readTranslations disk src) ns).getD []),
          k ∈ keys ((fileOf (syncTranslationStructure root disk languages src).1 l ns).getD []))
    ∧ (∀ t, fileOf disk l ns = some t →
        (cleanTargetFile ((aget (readTranslations disk src) ns).getD []) t).2 ≠ [] →
        ∀ k ∈ keys ((aget (readTranslations disk src) ns).getD []),
          k ∈ keys ((fileOf (syncTranslationStructure root disk languages src).1 l ns).getD [])) := by
  have hchar := sync_fileOf root disk languages src hndL hndN l hl hlsrc ns hns
  refine ⟨?_, ?_, ?_⟩
  · intro k hk
    rw [← aget_isSome_iff_mem_keys]
    rw [hchar] at hk
    exact keys_syncedFile_sub _ _ _ hk
  · intro hnone k hk
    rw [hchar, hnone]
    exact keys_syncedFile_complete_none _ _ hk
  · intro t ht horph k hk
    rw [hchar, ht]
    apply keys_syncedFile_complete_orphan _ _ _ _ hk
    rcases Bool.eq_false_or_eq_true
        ((cleanTargetFile ((aget (readTranslations disk src) ns).getD []) t).2.isEmpty) with he | he
    · exact absurd (List.isEmpty_iff.mp he) horph
    · exact he

/-- Witness for the amended C2 on a concrete state. -/
theorem c2_sync_key_containment_witness :
    (["en", "fr"] : List String).Nodup
    ∧ (getNamespaces exampleDisk2 "en").Nodup
    ∧ "fr" ∈ ["en", "fr"] ∧ "fr" ≠ "en" ∧ "ns1" ∈ getNamespaces exampleDisk2 "en"
    ∧ ((∀ k ∈ keys ((fileOf (syncTranslationStructure "r" exampleDisk2 ["en", "fr"] "en").1
            "fr" "ns1").getD []),
          k ∈ keys ((aget (readTranslations exampleDisk2 "en") "ns1").getD []))
        ∧ (fileOf exampleDisk2 "fr" "ns1" = none →
            ∀ k ∈ keys ((aget (readTranslations exampleDisk2 "en") "ns1").getD []),
              k ∈ keys ((fileOf (syncTranslationStructure "r" exampleDisk2 ["en", "fr"] "en").1
                "fr" "ns1").getD []))
        ∧ (∀ t, fileOf exampleDisk2 "fr" "ns1" = some t →
            (cleanTargetFile ((aget (readTranslations exampleDisk2 "en") "ns1").getD []) t).2 ≠ [] →
            ∀ k ∈ keys ((aget (readTranslations exampleDisk2 "en") "ns1").getD []),
              k ∈ keys ((fileOf (syncTranslationStructure "r" exampleDisk2 ["en", "fr"] "en").1
                "fr" "ns1").getD []))) :=
  ⟨by decide, by decide, by decide, by decide, by decide,
   c2_sync_key_containment "r" exampleDisk2 ["en", "fr"] "en" (by decide) (by decide)
     "fr" (by decide) (by decide) "ns1" (by decide)⟩

/-- C3 counterexample: the claim says the second of two back-to-back sync
passes returns a SyncResult in which every action list is empty.  On
exampleDisk2 the second pass returns a skippedFiles list with one entry
per existing (target language, namespace) file, so it is not empty. -/
theorem c3_second_sync_skipped_nonempty :
    (syncTranslationStructure "r"
        (syncTranslationStructure "r" exampleDisk2 ["en", "fr"] "en").1
        ["en", "fr"] "en").2.skippedFiles
      = [("fr", "ns1", "already exists")]
    ∧ (syncTranslationStructure "r"
        (syncTranslationStructure "r" exampleDisk2 ["en", "fr"] "en").1
        ["en", "fr"] "en").2.skippedFiles ≠ [] := by
  decide

/-- C3 (amended): a second sync pass with no intervening changes leaves
the disk unchanged and returns empty createdFolders, createdFiles and
cleanedKeys lists; its skippedFiles list instead records every (target
language, source namespace) pair with reason "already exists". -/
theorem c3_sync_idempotent_actions (root : String) (disk : Disk)
    (languages : List String) (src : String) (hndL : languages.Nodup)
    (hndN : (getNamespaces disk src).Nodup) :
    (syncTranslationStructure root (syncTranslationStructure root disk languages src).1
        languages src).1
      = (syncTranslationStructure root disk languages src).1
    ∧ (syncTranslationStructure root (syncTranslationStructure root disk languages src).1
        languages src).2.createdFolders = []
    ∧ (syncTranslationStructure root (syncTranslationStructure root disk languages src).1
        languages src).2.createdFiles = []
    ∧ (syncTranslationStructure root (syncTranslationStructure root disk languages src).1
        languages src).2.cleanedKeys = []
    ∧ (syncTranslationStructure root (syncTranslationStructure root disk languages src).1
        languages src).2.skippedFiles
      = (languages.filter (fun lang => lang ≠ src)).flatMap
          (fun l => (getNamespaces disk src).map (fun ns => (l, ns, "already exists"))) := by
  have h := sync_second_run root disk languages src hndL hndN
  rw [h]
  simp [addSkipped, emptySyncResult]

/-- Witness for the amended C3 on a concrete state. -/
theorem c3_sync_idempotent_actions_witness :
    (["en", "fr"] : List String).Nodup
    ∧ (getNamespaces exampleDisk2 "en").Nodup
    ∧ ((syncTranslationStructure "r"
          (syncTranslationStructure "r" exampleDisk2 ["en", "fr"] "en").1
          ["en", "fr"] "en").1
        = (syncTranslationStructure "r" exampleDisk2 ["en", "fr"] "en").1
      ∧ (syncTranslationStructure "r"
          (syncTranslationStructure "r" exampleDisk2 ["en", "fr"] "en").1
          ["en", "fr"] "en").2.createdFolders = []
      ∧ (syncTranslationStructure "r"
          (syncTranslationStructure "r" exampleDisk2 ["en", "fr"] "en").1
          ["en", "fr"] "en").2.createdFiles = []
      ∧ (syncTranslationStructure "r"
          (syncTranslationStructure "r" exampleDisk2 ["en", "fr"] "en").1
          ["en", "fr"] "en").2.cleanedKeys = []
      ∧ (syncTranslationStructure "r"
          (syncTranslationStructure "r" exampleDisk2 ["en", "fr"] "en").1
          ["en", "fr"] "en").2.skippedFiles
        = ((["en", "fr"] : List String).filter (fun lang => lang ≠ "en")).flatMap
            (fun l => (getNamespaces exampleDisk2 "en").map
              (fun ns => (l, ns, "already exists")))) :=
  ⟨by decide, by decide,
   c3_sync_idempotent_actions "r" exampleDisk2 ["en", "fr"] "en" (by decide) (by decide)⟩

/-- C4: validateTranslations runs the Sync Engine first and re-reads the
target files afterwards, so the orphaned list of the returned report is
always empty: sync has already stripped every target key that is absent
from its source namespace map. -/
theorem c4_validate_orphaned_empty (root : String) (disk : Disk)
    (cfgLanguages : List String) (src : String) (hndL : cfgLanguages.Nodup)
    (hndN : (getNamespaces disk src).Nodup) :
    (validateTranslations root disk cfgLanguages src).1.orphaned = [] := by
  unfold validateTranslations
  simp only [List.flatMap_eq_nil_iff, List.filterMap_eq_nil_iff]
  intro lang hlang ns hns kv hkv
  rw [List.mem_filter] at hlang
  have hlne : lang ≠ src := by simpa using hlang.2
  have hk : (aget ((aget (readTranslations disk src) ns).getD []) kv.1).isSome = true := by
    apply sync_target_keys_sub root disk cfgLanguages src hndL hndN lang hlang.1 hlne ns hns
    exact fst_mem_keys hkv
  obtain ⟨w, hw⟩ := Option.isSome_iff_exists.mp hk
  simp [hw]

/-- Witness for C4 on a concrete state with an orphaned target key. -/
theorem c4_validate_orphaned_empty_witness :
    (["en", "fr"] : List String).Nodup
    ∧ (getNamespaces exampleDisk5 "en").Nodup
    ∧ (validateTranslations "r" exampleDisk5 ["en", "fr"] "en").1.orphaned = [] :=
  ⟨by decide, by decide,
   c4_validate_orphaned_empty "r" exampleDisk5 ["en", "fr"] "en" (by decide) (by decide)⟩

/-- C10: sync never writes to the source language: every file write of
the pass targets a filtered target language, so the source language's
directory - its namespace files and their key-value maps - reads back
unchanged after the pass, whatever the starting state. -/
theorem c10_sync_preserves_source (root : String) (disk : Disk)
    (languages : List String) (src : String) :
    readTranslations (syncTranslationStructure root disk languages src).1 src
      = readTranslations disk src
    ∧ getNamespaces (syncTranslationStructure root disk languages src).1 src
      = getNamespaces disk src := by
  refine ⟨sync_source_unchanged root disk languages src, ?_⟩
  unfold getNamespaces
  rw [sync_source_unchanged root disk languages src]

/-- C6 counterexample: the claim says workspace rewrites happen with keys in
lexicographic order.  On exampleDisk3 the orphaned key "zz" forces a
rewrite, and the rewritten file keeps the surviving target key "b" before
the filled source key "a": the file on disk is not equal to its sortKeys
image, so the rewrite is not sorted. -/
theorem c6_sync_rewrite_not_sorted :
    fileOf (syncTranslationStructure "r" exampleDisk3 ["en", "fr"] "en").1 "fr" "ns1"
      = some [("b", "x"), ("a", "")]
    ∧ (syncTranslationStructure "r" exampleDisk3 ["en", "fr"] "en").2.cleanedKeys
      = [("fr", "ns1", "zz")]
    ∧ [(("b" : String), ("x" : String)), ("a", "")]
      ≠ sortKeys [("b", "x"), ("a", "")] := by
  decide

/-- C6 (amended): when at least one key is dropped as orphaned, the file
is rewritten with the cleaned-and-filled map whose entries are the
surviving target entries in their original order followed by the missing
source keys (with empty values) in source order - not in lexicographic
order; when no key is dropped, the file on disk is left untouched. -/
theorem c6_sync_rewrite_exact (root : String) (disk : Disk)
    (languages : List String) (src : String) (hndL : languages.Nodup)
    (hndN : (getNamespaces disk src).Nodup) (l : String) (hl : l ∈ languages)
    (hlsrc : l ≠ src) (ns : String) (hns : ns ∈ getNamespaces disk src)
    (t : FlatMap) (hfile : fileOf disk l ns = some t)
    (hndT : (keys t).Nodup)
    (hndS : (keys ((aget (readTranslations disk src) ns).getD [])).Nodup) :
    ((cleanTargetFile ((aget (readTranslations disk src) ns).getD []) t).2 = [] →
      fileOf (syncTranslationStructure root disk languages src).1 l ns = some t)
    ∧ ((cleanTargetFile ((aget (readTranslations disk src) ns).getD []) t).2 ≠ [] →
      fileOf (syncTranslationStructure root disk languages src).1 l ns
        = some (t.filter
            (fun kv => (aget ((aget (readTranslations disk src) ns).getD []) kv.1).isSome)
          ++ (((aget (readTranslations disk src) ns).getD []).filter
              (fun kv => (aget (t.filter (fun kv2 =>
                (aget ((aget (readTranslations disk src) ns).getD []) kv2.1).isSome)) kv.1).isNone)).map
            (fun kv => (kv.1, "")))) := by
  have hchar := sync_fileOf root disk languages src hndL hndN l hl hlsrc ns hns
  rw [hfile] at hchar
  constructor
  · intro hnil
    rw [hchar]
    have hemp : (cleanTargetFile ((aget (readTranslations disk src) ns).getD []) t).2.isEmpty = true :=
      List.isEmpty_iff.mpr hnil
    simp [syncedFile, hemp]
  · intro hne
    rw [hchar]
    have hemp : (cleanTargetFile ((aget (readTranslations disk src) ns).getD []) t).2.isEmpty = false := by
      rcases Bool.eq_false_or_eq_true
          ((cleanTargetFile ((aget (readTranslations disk src) ns).getD []) t).2.isEmpty) with he | he
      · exact absurd (List.isEmpty_iff.mp he) hne
      · exact he
    simp only [syncedFile, hemp, Bool.false_eq_true, if_false]
    rw [cleanTargetFile_fst_eq_filter _ _ hndT]
    rw [fillMissingKeys_eq_append _ _ hndS]

/-- Witness for the amended C6 on a concrete state. -/
theorem c6_sync_rewrite_exact_witness :
    (["en", "fr"] : List String).Nodup
    ∧ (getNamespaces exampleDisk3 "en").Nodup
    ∧ "fr" ∈ ["en", "fr"] ∧ "fr" ≠ "en" ∧ "ns1" ∈ getNamespaces exampleDisk3 "en"
    ∧ fileOf exampleDisk3 "fr" "ns1" = some [("b", "x"), ("zz", "y")]
    ∧ (keys [(("b" : String), ("x" : String)), ("zz", "y")]).Nodup
    ∧ (keys ((aget (readTranslations exampleDisk3 "en") "ns1").getD [])).Nodup
    ∧ (((cleanTargetFile ((aget (readTranslations exampleDisk3 "en") "ns1").getD [])
          [("b", "x"), ("zz", "y")]).2 = [] →
        fileOf (syncTranslationStructure "r" exampleDisk3 ["en", "fr"] "en").1 "fr" "ns1"
          = some [("b", "x"), ("zz", "y")])
      ∧ ((cleanTargetFile ((aget (readTranslations exampleDisk3 "en") "ns1").getD [])
          [("b", "x"), ("zz", "y")]).2 ≠ [] →
        fileOf (syncTranslationStructure "r" exampleDisk3 ["en", "fr"] "en").1 "fr" "ns1"
          = some ([("b", "x"), ("zz", "y")].filter
              (fun kv => (aget ((aget (readTranslations exampleDisk3 "en") "ns1").getD []) kv.1).isSome)
            ++ (((aget (readTranslations exampleDisk3 "en") "ns1").getD []).filter
                (fun kv => (aget ([("b", "x"), ("zz", "y")].filter (fun kv2 =>
                  (aget ((aget (readTranslations exampleDisk3 "en") "ns1").getD []) kv2.1).isSome)) kv.1).isNone)).map
              (fun kv => (kv.1, ""))))) :=
  ⟨by decide, by decide, by decide, by decide, by decide, by decide, by decide, by decide,
   c6_sync_rewrite_exact "r" exampleDisk3 ["en", "fr"] "en" (by decide) (by decide)
     "fr" (by decide) (by decide) "ns1" (by decide) [("b", "x"), ("zz", "y")]
     (by decide) (by decide) (by decide)⟩

/-- C7 counterexample: the claim says a source key is reported as a
duplicate exactly when its value is byte-for-byte equal to some common
value.  On exampleDisk4 the common namespace holds "Save" under the
empty-string key; SAVE_BTN's value "Save" matches it byte-for-byte, yet
the JavaScript truthiness guard on the looked-up key drops the hit and no
duplicate is reported. -/
theorem c7_duplicates_truthiness_counterexample :
    (findDuplicates exampleDisk4 "en").duplicates = []
    ∧ (findDuplicates exampleDisk4 "en").totalKeysChecked = 1
    ∧ ("", "Save") ∈ (aget (readTranslations exampleDisk4 "en") "common").getD []
    ∧ ("SAVE_BTN", "Save") ∈ (aget (readTranslations exampleDisk4 "en") "buttons").getD [] := by
  decide

/-- C7 (amended): a source key of a non-common namespace is reported as a
duplicate exactly when its value equals an indexed common value whose
first-seen common key is non-empty (the truthiness guard skips an
empty-string common key), referencing that first-seen key; and when the
common namespace is absent or empty, the result is the empty duplicates
list with totalKeysChecked = 0. -/
theorem c7_findDuplicates_spec (disk : Disk) (src : String) :
    ((aget (readTranslations disk src) "common").getD [] = [] →
      findDuplicates disk src = ⟨[], 0⟩)
    ∧ (∀ ns k ck v, (ns, k, ck, v) ∈ (findDuplicates disk src).duplicates ↔
        (ns ∈ getNamespaces disk src ∧ ns ≠ "common"
          ∧ (k, v) ∈ (aget (readTranslations disk src) ns).getD []
          ∧ ((((aget (readTranslations disk src) "common").getD []).find?
              (fun kv => kv.2 = v)).map Prod.fst = some ck)
          ∧ ck ≠ "")) := by
  constructor
  · intro h
    simp only [findDuplicates]
    rw [h]
    rfl
  · intro ns k ck v
    by_cases hz : (keys ((aget (readTranslations disk src) "common").getD [])).length = 0
    · have hcv : (aget (readTranslations disk src) "common").getD [] = [] := by
        cases hx : (aget (readTranslations disk src) "common").getD [] with
        | nil => rfl
        | cons a rest =>
            rw [hx] at hz
            simp [keys] at hz
      simp only [findDuplicates]
      rw [if_pos hz, hcv]
      simp
    · simp only [findDuplicates]
      rw [if_neg hz]
      dsimp only
      rw [List.mem_flatMap]
      constructor
      · rintro ⟨ns2, hns2, hmem⟩
        by_cases hcom : ns2 = "common"
        · rw [if_pos hcom] at hmem
          simp at hmem
        · rw [if_neg hcom] at hmem
          rw [List.mem_filterMap] at hmem
          obtain ⟨kv, hkv, hf⟩ := hmem
          rw [buildIndex_aget] at hf
          cases hfind : ((aget (readTranslations disk src) "common").getD []).find?
              (fun kv2 => kv2.2 = kv.2) with
          | none =>
              rw [hfind] at hf
              simp at hf
          | some ckv =>
              rw [hfind] at hf
              simp only [Option.map_some'] at hf
              by_cases hck : ckv.1 = ""
              · rw [if_pos hck] at hf
                simp at hf
              · rw [if_neg hck] at hf
                simp only [Option.some.injEq, Prod.mk.injEq] at hf
                obtain ⟨hns_eq, hk_eq, hck_eq, hv_eq⟩ := hf
                subst hns_eq
                subst hk_eq
                subst hck_eq
                subst hv_eq
                refine ⟨hns2, hcom, ?_, ?_, hck⟩
                · simpa using hkv
                · rw [hfind]
                  rfl
      · rintro ⟨hns, hncom, hkv, hfind, hck⟩
        refine ⟨ns, hns, ?_⟩
        rw [if_neg hncom, List.mem_filterMap]
        refine ⟨(k, v), hkv, ?_⟩
        rw [buildIndex_aget]
        cases hfind2 : ((aget (readTranslations disk src) "common").getD []).find?
            (fun kv2 => kv2.2 = v) with
        | none =>
            rw [hfind2] at hfind
            simp at hfind
        | some ckv =>
            rw [hfind2] at hfind
            simp only [Option.map_some', Option.some.injEq] at hfind
            subst hfind
            simp [hck]

/-- Witness for the amended C7 on a concrete state. -/
theorem c7_findDuplicates_spec_witness :
    ((aget (readTranslations exampleDisk4 "en") "common").getD [] = [] →
      findDuplicates exampleDisk4 "en" = ⟨[], 0⟩)
    ∧ (∀ ns k ck v, (ns, k, ck, v) ∈ (findDuplicates exampleDisk4 "en").duplicates ↔
        (ns ∈ getNamespaces exampleDisk4 "en" ∧ ns ≠ "common"
          ∧ (k, v) ∈ (aget (readTranslations exampleDisk4 "en") ns).getD []
          ∧ ((((aget (readTranslations exampleDisk4 "en") "common").getD []).find?
              (fun kv => kv.2 = v)).map Prod.fst = some ck)
          ∧ ck ≠ "")) :=
  c7_findDuplicates_spec exampleDisk4 "en"

/-- C5: over the post-sync state that validateTranslations diffs, a
source key of a namespace is reported missing for a target language
exactly when it is absent from that language's namespace map, and empty
exactly when it is present with a value whose trim is the empty string;
the valid flag is true exactly when the missing, empty and orphaned lists
are all empty. -/
theorem c5_validate_classification (root : String) (disk : Disk)
    (cfgLanguages : List String) (src : String) :
    (∀ ns k lang v,
      ((ns, k, lang, v) ∈ (validateTranslations root disk cfgLanguages src).1.missing ↔
        (lang ∈ cfgLanguages.filter (fun x => x ≠ src)
          ∧ ns ∈ getNamespaces disk src
          ∧ (k, v) ∈ (aget (readTranslations disk src) ns).getD []
          ∧ aget ((aget (readTranslations
              (validateTranslations root disk cfgLanguages src).2 lang) ns).getD []) k = none))
      ∧ ((ns, k, lang, v) ∈ (validateTranslations root disk cfgLanguages src).1.empty ↔
        (lang ∈ cfgLanguages.filter (fun x => x ≠ src)
          ∧ ns ∈ getNamespaces disk src
          ∧ (k, v) ∈ (aget (readTranslations disk src) ns).getD []
          ∧ ∃ tv, aget ((aget (readTranslations
              (validateTranslations root disk cfgLanguages src).2 lang) ns).getD []) k = some tv
            ∧ jsTrim tv = "")))
    ∧ ((validateTranslations root disk cfgLanguages src).1.valid = true ↔
        ((validateTranslations root disk cfgLanguages src).1.missing = []
          ∧ (validateTranslations root disk cfgLanguages src).1.empty = []
          ∧ (validateTranslations root disk cfgLanguages src).1.orphaned = [])) := by
  constructor
  · intro ns k lang v
    constructor
    · simp only [validateTranslations, List.mem_flatMap, List.mem_filterMap]
      constructor
      · rintro ⟨lang2, hlang2, ns2, hns2, ⟨kk, vv⟩, hkv, hf⟩
        cases hx : aget ((aget (readTranslations
            (syncTranslationStructure root disk cfgLanguages src).1 lang2) ns2).getD []) kk with
        | some w =>
            rw [hx] at hf
            simp at hf
        | none =>
            rw [hx] at hf
            simp only [Option.isNone_none, if_true, Option.some.injEq, Prod.mk.injEq] at hf
            obtain ⟨h1, h2, h3, h4⟩ := hf
            subst h1; subst h2; subst h3; subst h4
            exact ⟨hlang2, hns2, hkv, hx⟩
      · rintro ⟨hlang, hns, hkv, hnone⟩
        refine ⟨lang, hlang, ns, hns, (k, v), hkv, ?_⟩
        rw [show aget ((aget (readTranslations
            (syncTranslationStructure root disk cfgLanguages src).1 lang) ns).getD []) (k, v).1
          = none from hnone]
        rfl
    · simp only [validateTranslations, List.mem_flatMap, List.mem_filterMap]
      constructor
      · rintro ⟨lang2, hlang2, ns2, hns2, ⟨kk, vv⟩, hkv, hf⟩
        cases hx : aget ((aget (readTranslations
            (syncTranslationStructure root disk cfgLanguages src).1 lang2) ns2).getD []) kk with
        | none =>
            rw [hx] at hf
            simp at hf
        | some tv =>
            rw [hx] at hf
            by_cases htr : jsTrim tv = ""
            · simp only [htr, if_true, Option.some.injEq, Prod.mk.injEq] at hf
              obtain ⟨h1, h2, h3, h4⟩ := hf
              subst h1; subst h2; subst h3; subst h4
              exact ⟨hlang2, hns2, hkv, tv, hx, htr⟩
            · simp [htr] at hf
      · rintro ⟨hlang, hns, hkv, tv, htv, htr⟩
        refine ⟨lang, hlang, ns, hns, (k, v), hkv, ?_⟩
        rw [show aget ((aget (readTranslations
            (syncTranslationStructure root disk cfgLanguages src).1 lang) ns).getD []) (k, v).1
          = some tv from htv]
        simp [htr]
  · simp only [validateTranslations]
    simp only [Bool.and_eq_true, List.isEmpty_iff]
    tauto

/-- C8: extractPluralBaseKeys returns exactly the non-empty bases
obtained by stripping a trailing CLDR plural suffix from some input key
such that no input key equals the base, each base at most once; a suffix
occurring only mid-token never produces a base, since membership requires
the key to be the base followed by the whole suffix. -/
theorem c8_extractPluralBaseKeys_spec (ks : List String) :
    (∀ b, b ∈ extractPluralBaseKeys ks ↔
      (b ≠ "" ∧ b ∉ ks ∧ ∃ sfx ∈ PLURAL_SUFFIXES, (b ++ sfx) ∈ ks))
    ∧ (extractPluralBaseKeys ks).Nodup := by
  constructor
  · intro b
    unfold extractPluralBaseKeys
    rw [pluralFold_mem ks ks [] b]
    simp only [List.not_mem_nil, false_or]
    constructor
    · rintro ⟨hne, hnk, sfx, hsfx, k, hk, heq⟩
      exact ⟨hne, hnk, sfx, hsfx, heq ▸ hk⟩
    · rintro ⟨hne, hnk, sfx, hsfx, hk⟩
      exact ⟨hne, hnk, sfx, hsfx, b ++ sfx, hk, rfl⟩
  · exact pluralFold_nodup ks ks [] (by simp)

theorem processFold_length (dryRun : Bool)
    (translate : FillItem → Except String String) (language : String)
    (items : List FillItem) (st : Disk × List (FillItem × Bool)) :
    (items.foldl (processItem dryRun translate language) st).2.length
      = st.2.length + items.length := by
  induction items generalizing st with
  | nil => simp
  | cons item rest ih =>
      rcases hx : translate item with e | t
      · simp only [List.foldl_cons, processItem, hx]
        rw [ih (st.1, st.2 ++ [(item, false)])]
        simp only [List.length_append, List.length_cons, List.length_nil]
        omega
      · simp only [List.foldl_cons, processItem, hx]
        rw [ih ((if dryRun then st.1 else applyTranslationWrite st.1 language item t),
          st.2 ++ [(item, true)])]
        simp only [List.length_append, List.length_cons, List.length_nil]
        omega

/-- C9: when the translation capability fails for one item of a batch,
that item performs no write and is recorded as unsuccessful - the state
and records of the run are those of the batch without the failing item,
with the failure record prepended - every item of the batch still gets a
record (the run never aborts), and the failing item does not count
towards totalTranslated. -/
theorem c9_autofill_failure_skips_and_continues (dryRun : Bool)
    (translate : FillItem → Except String String) (language : String) (disk : Disk)
    (item : FillItem) (rest : List FillItem) (e : String)
    (h : translate item = Except.error e) :
    processBatch dryRun translate language disk (item :: rest)
      = ((processBatch dryRun translate language disk rest).1,
         (item, false) :: (processBatch dryRun translate language disk rest).2)
    ∧ (processBatch dryRun translate language disk (item :: rest)).2.length
        = rest.length + 1
    ∧ totalTranslated (processBatch dryRun translate language disk (item :: rest)).2
        = totalTranslated (processBatch dryRun translate language disk rest).2 := by
  have key : processBatch dryRun translate language disk (item :: rest)
      = ((processBatch dryRun translate language disk rest).1,
         (item, false) :: (processBatch dryRun translate language disk rest).2) := by
    unfold processBatch
    simp only [List.foldl_cons, processItem, h]
    rw [processFold_acc dryRun translate language rest (disk, [] ++ [(item, false)])]
    simp
  refine ⟨key, ?_, ?_⟩
  · rw [key]
    dsimp only
    rw [List.length_cons]
    unfold processBatch
    rw [processFold_length dryRun translate language rest (disk, [])]
    simp
  · rw [key]
    unfold totalTranslated
    rw [List.filter_cons]
    simp

/-- Witness for C9: a batch whose first item fails to translate. -/
theorem c9_autofill_failure_witness :
    (fun it : FillItem => if it.key = "bad"
        then (Except.error "boom" : Except String String)
        else Except.ok it.sourceValue) ⟨"common", "bad", "X"⟩ = Except.error "boom"
    ∧ (processBatch false
          (fun it : FillItem => if it.key = "bad"
            then (Except.error "boom" : Except String String)
            else Except.ok it.sourceValue)
          "fr" exampleDisk2 (⟨"common", "bad", "X"⟩ :: [⟨"ns1", "B", "y"⟩])
        = ((processBatch false
            (fun it : FillItem => if it.key = "bad"
              then (Except.error "boom" : Except String String)
              else Except.ok it.sourceValue)
            "fr" exampleDisk2 [⟨"ns1", "B", "y"⟩]).1,
           (⟨"common", "bad", "X"⟩, false) :: (processBatch false
            (fun it : FillItem => if it.key = "bad"
              then (Except.error "boom" : Except String String)
              else Except.ok it.sourceValue)
            "fr" exampleDisk2 [⟨"ns1", "B", "y"⟩]).2)
      ∧ (processBatch false
          (fun it : FillItem => if it.key = "bad"
            then (Except.error "boom" : Except String String)
            else Except.ok it.sourceValue)
          "fr" exampleDisk2 (⟨"common", "bad", "X"⟩ :: [⟨"ns1", "B", "y"⟩])).2.length
        = [(⟨"ns1", "B", "y"⟩ : FillItem)].length + 1
      ∧ totalTranslated (processBatch false
          (fun it : FillItem => if it.key = "bad"
            then (Except.error "boom" : Except String String)
            else Except.ok it.sourceValue)
          "fr" exampleDisk2 (⟨"common", "bad", "X"⟩ :: [⟨"ns1", "B", "y"⟩])).2
        = totalTranslated (processBatch false
          (fun it : FillItem => if it.key = "bad"
            then (Except.error "boom" : Except String String)
            else Except.ok it.sourceValue)
          "fr" exampleDisk2 [⟨"ns1", "B", "y"⟩]).2) :=
  ⟨rfl,
   c9_autofill_failure_skips_and_continues false
     (fun it : FillItem => if it.key = "bad"
       then (Except.error "boom" : Except String String)
       else Except.ok it.sourceValue)
     "fr" exampleDisk2 ⟨"common", "bad", "X"⟩ [⟨"ns1", "B", "y"⟩] "boom" rfl⟩

end PolyLexis
